import Mathlib

/-!
Verification development for the constitutional-playground critique engine.

The similarity primitive `calculate_text_similarity` (apps/api/cai_core/critique.py)
delegates to Python's `difflib.SequenceMatcher(None, text1, text2).ratio()`, so the
embedding below follows CPython's difflib implementation: the `b2j` index with
autojunk purging of popular elements, the `find_longest_match` dynamic program with
its four extension loops, the `get_matching_blocks` recursion with sorting and
collapsing of adjacent blocks, and the final `2*M/T` score.  With `isjunk = None`
the junk set `bjunk` is empty, which is how the repository always invokes it.

Numeric values (similarity scores, severities, confidences) are modelled as `ℚ`.
While-loops are modelled with an explicit fuel argument that provably exceeds the
number of iterations the source can perform.
-/

namespace CAI

/-- Default character used for (never-reached) out-of-range list reads. -/
def dfltChar : Char := Char.ofNat 0

/-- Positions of character `c` in `b`, in ascending order: difflib's `b2j`
before the junk/popular purge (`for i, elt in enumerate(b): b2j[elt].append(i)`). -/
def charPositions (b : List Char) (c : Char) : List Nat :=
  (List.range b.length).filter (fun j => b.getD j dfltChar == c)

/-- difflib `b2j` as used by `SequenceMatcher(None, a, b)`: positions of each
element of `b`, with "popular" entries removed by autojunk when `len(b) >= 200`
(`ntest = n // 100 + 1; len(idxs) > ntest` marks an element popular).  A missing
key yields `[]`, matching `b2j.get(a[i], nothing)`. -/
def b2j (b : List Char) (c : Char) : List Nat :=
  let idxs := charPositions b c
  if 200 ≤ b.length ∧ b.length / 100 + 1 < idxs.length then [] else idxs

/-- A matching block, difflib's `Match(a, b, size)` named triple. -/
structure MatchBlock where
  a : Nat
  b : Nat
  size : Nat
deriving DecidableEq, Repr

/-- Inner-loop body of the `find_longest_match` dynamic program, for one
b-position `j` of the current row element `a[i]`:
`k = newj2len[j] = j2len.get(j-1, 0) + 1; if k > bestsize: best = (i-k+1, j-k+1, k)`.
The source's key `j-1` on `j = 0` is Python's `-1`, absent from the dict, hence 0.
The subtractions `i-k+1`, `j-k+1` are written `i+1-k`, `j+1-k` (equal over ℤ). -/
def flmStep (j2lenPrev : Nat → Nat) (i : Nat)
    (st : (Nat → Nat) × MatchBlock) (j : Nat) : (Nat → Nat) × MatchBlock :=
  let k := (if j = 0 then 0 else j2lenPrev (j - 1)) + 1
  let newmap : Nat → Nat := fun t => if t = j then k else st.1 t
  let best := if st.2.size < k then ⟨i + 1 - k, j + 1 - k, k⟩ else st.2
  (newmap, best)

/-- The `j` positions examined for row `i`: difflib iterates `b2j.get(a[i], [])`
skipping `j < blo` (`continue`) and stopping at the first `j >= bhi` (`break`);
since the position list is ascending this is exactly the in-range sublist. -/
def rowPositions (a b : List Char) (blo bhi i : Nat) : List Nat :=
  (b2j b (a.getD i dfltChar)).filter (fun j => decide (blo ≤ j) && decide (j < bhi))

/-- One row of the `find_longest_match` dynamic program: fold `flmStep` over the
in-range b-positions of `a[i]`, starting from a fresh `newj2len` (difflib rebinds
`j2len = newj2len` after every row, even an empty one). -/
def flmRow (a b : List Char) (blo bhi : Nat)
    (st : (Nat → Nat) × MatchBlock) (i : Nat) : (Nat → Nat) × MatchBlock :=
  (rowPositions a b blo bhi i).foldl (flmStep st.1 i) (fun _ => 0, st.2)

/-- The dynamic-programming phase of `find_longest_match` over rows
`i in range(alo, ahi)`, with initial best `(alo, blo, 0)` and empty `j2len`. -/
def flmDP (a b : List Char) (alo ahi blo bhi : Nat) : MatchBlock :=
  ((List.range' alo (ahi - alo)).foldl (flmRow a b blo bhi) (fun _ => 0, ⟨alo, blo, 0⟩)).2

/-- Fuel-bounded while loop used for the four extension loops of
`find_longest_match`; the fuel supplied always exceeds the possible iteration
count, so this equals the source's unbounded `while`. -/
def extendWhile (cond : MatchBlock → Bool) (step : MatchBlock → MatchBlock) :
    Nat → MatchBlock → MatchBlock
  | 0, m => m
  | fuel + 1, m => if cond m then extendWhile cond step fuel (step m) else m

/-- Guard of the backward extension loops:
`besti > alo and bestj > blo and junkcond(b[bestj-1]) and a[besti-1] == b[bestj-1]`. -/
def backCond (a b : List Char) (junkcond : Char → Bool) (alo blo : Nat)
    (m : MatchBlock) : Bool :=
  decide (alo < m.a) && decide (blo < m.b) &&
    junkcond (b.getD (m.b - 1) dfltChar) &&
    (a.getD (m.a - 1) dfltChar == b.getD (m.b - 1) dfltChar)

/-- Guard of the forward extension loops:
`besti+bestsize < ahi and bestj+bestsize < bhi and junkcond(b[bestj+bestsize])
and a[besti+bestsize] == b[bestj+bestsize]`. -/
def fwdCond (a b : List Char) (junkcond : Char → Bool) (ahi bhi : Nat)
    (m : MatchBlock) : Bool :=
  decide (m.a + m.size < ahi) && decide (m.b + m.size < bhi) &&
    junkcond (b.getD (m.b + m.size) dfltChar) &&
    (a.getD (m.a + m.size) dfltChar == b.getD (m.b + m.size) dfltChar)

/-- One backward extension step: `besti, bestj, bestsize = besti-1, bestj-1, bestsize+1`. -/
def backStep (m : MatchBlock) : MatchBlock := ⟨m.a - 1, m.b - 1, m.size + 1⟩

/-- One forward extension step: `bestsize += 1`. -/
def fwdStep (m : MatchBlock) : MatchBlock := ⟨m.a, m.b, m.size + 1⟩

/-- difflib `find_longest_match(alo, ahi, blo, bhi)`: the DP phase followed by
the four extension loops (non-junk backward, non-junk forward, junk backward,
junk forward).  `bjunk` is the junk set membership test `self.bjunk.__contains__`;
the repository's call sites have `isjunk = None`, so `bjunk` is constantly false
there and the two junk loops never fire. -/
def find_longest_match (a b : List Char) (bjunk : Char → Bool)
    (alo ahi blo bhi : Nat) : MatchBlock :=
  let fuel := a.length + b.length + 1
  let m0 := flmDP a b alo ahi blo bhi
  let m1 := extendWhile (fun m => backCond a b (fun c => !bjunk c) alo blo m) backStep fuel m0
  let m2 := extendWhile (fun m => fwdCond a b (fun c => !bjunk c) ahi bhi m) fwdStep fuel m1
  let m3 := extendWhile (fun m => backCond a b bjunk alo blo m) backStep fuel m2
  let m4 := extendWhile (fun m => fwdCond a b bjunk ahi bhi m) fwdStep fuel m3
  m4

/-- The recursive core of `get_matching_blocks`: find the longest match of the
current range, keep it if non-empty, and recurse on the two flanking subranges
(guarded by `alo < i and blo < j` resp. `i+k < ahi and j+k < bhi`).  The source
maintains an explicit work queue and sorts afterwards; recursion produces the
same multiset of blocks, and the sort below normalizes the order identically. -/
def matchingBlocksRec (a b : List Char) (bjunk : Char → Bool) :
    Nat → Nat → Nat → Nat → Nat → List MatchBlock
  | 0, _, _, _, _ => []
  | fuel + 1, alo, ahi, blo, bhi =>
    let m := find_longest_match a b bjunk alo ahi blo bhi
    if m.size = 0 then []
    else
      (if alo < m.a ∧ blo < m.b then matchingBlocksRec a b bjunk fuel alo m.a blo m.b else []) ++
      [m] ++
      (if m.a + m.size < ahi ∧ m.b + m.size < bhi then
        matchingBlocksRec a b bjunk fuel (m.a + m.size) ahi (m.b + m.size) bhi else [])

/-- Lexicographic order on `(a, b, size)` triples, as Python's tuple sort uses. -/
def blockLE (x y : MatchBlock) : Bool :=
  decide (x.a < y.a) ||
    (decide (x.a = y.a) &&
      (decide (x.b < y.b) || (decide (x.b = y.b) && decide (x.size ≤ y.size))))

/-- Insertion step of the block sort. -/
def insertBlock (x : MatchBlock) : List MatchBlock → List MatchBlock
  | [] => [x]
  | y :: l => if blockLE x y then x :: y :: l else y :: insertBlock x l

/-- `matching_blocks.sort()`: sort blocks lexicographically. -/
def sortBlocks : List MatchBlock → List MatchBlock
  | [] => []
  | x :: l => insertBlock x (sortBlocks l)

/-- The adjacent-block collapsing loop of `get_matching_blocks`, carried state
`(i1, j1, k1)` starting from `(0, 0, 0)`: an adjacent block (`i1+k1 == i2 and
j1+k1 == j2`) is merged into the current one, otherwise the current block is
emitted (when `k1` is non-zero) and replaced. -/
def collapseAux : Nat → Nat → Nat → List MatchBlock → List MatchBlock
  | i1, j1, k1, [] => if k1 ≠ 0 then [⟨i1, j1, k1⟩] else []
  | i1, j1, k1, m :: rest =>
    if i1 + k1 = m.a ∧ j1 + k1 = m.b then collapseAux i1 j1 (k1 + m.size) rest
    else (if k1 ≠ 0 then [⟨i1, j1, k1⟩] else []) ++ collapseAux m.a m.b m.size rest

/-- difflib `get_matching_blocks()`: recursive block discovery from the full
ranges, sort, collapse adjacent blocks, and append the `(la, lb, 0)` sentinel. -/
def get_matching_blocks (a b : List Char) (bjunk : Char → Bool) : List MatchBlock :=
  let la := a.length
  let lb := b.length
  let blocks := matchingBlocksRec a b bjunk (la + lb + 1) 0 la 0 lb
  collapseAux 0 0 0 (sortBlocks blocks) ++ [⟨la, lb, 0⟩]

/-- Total number of matched elements: `sum(triple[-1] for triple in blocks)`. -/
def matchTotal (l : List MatchBlock) : Nat := (l.map (·.size)).sum

/-- difflib `_calculate_ratio(matches, length)`: `2.0 * matches / length` when
`length` is non-zero, else `1.0`. -/
def calcRatioAux (nmatch tlen : Nat) : ℚ :=
  if tlen ≠ 0 then (2 * nmatch : ℚ) / tlen else 1

/-- `SequenceMatcher(None, a, b).ratio()` on element lists, with the empty junk
set that `isjunk = None` produces. -/
def seqMatcherScore (a b : List Char) : ℚ :=
  calcRatioAux (matchTotal (get_matching_blocks a b (fun _ => false))) (a.length + b.length)

/-- The repository's `calculate_text_similarity(text1, text2)`:
`SequenceMatcher(None, text1, text2).ratio()`. -/
def calculate_text_similarity (text1 text2 : String) : ℚ :=
  seqMatcherScore text1.data text2.data

/-! ### Data model (packages/cai_core/constitution.py) -/

/-- Categories for organizing principles. -/
inductive PrincipleCategory where
  | safety | honesty | helpfulness | ethics | custom
deriving DecidableEq, Repr

/-- A single principle in a constitution.  `examples` is a list of dicts in the
source; dicts are modelled as association lists. -/
structure Principle where
  id : String
  name : String
  description : String
  category : PrincipleCategory
  critique_prompt : String
  revision_prompt : String
  weight : ℚ := 1
  enabled : Bool := true
  examples : List (List (String × String)) := []
deriving DecidableEq, Repr

/-- A collection of principles that define AI behavior guidelines.  The
timestamps are opaque strings here; `metadata` is an association list. -/
structure Constitution where
  id : String
  name : String
  description : String
  principles : List Principle
  version : String := "1.0.0"
  author : String := "anonymous"
  created_at : String := ""
  updated_at : String := ""
  tags : List String := []
  is_public : Bool := false
  metadata : List (String × String) := []
deriving DecidableEq, Repr

/-- `Constitution.get_enabled_principles`: `[p for p in self.principles if p.enabled]`. -/
def Constitution.get_enabled_principles (c : Constitution) : List Principle :=
  c.principles.filter (·.enabled)

/-- The dict comprehension `{p.id: p for p in principles}` of `reorder_principles`:
on duplicate ids the later entry overwrites the earlier one. -/
def idToPrinciple (ps : List Principle) (pid : String) : Option Principle :=
  (ps.filter (fun p => p.id == pid)).getLast?

/-- `Constitution.reorder_principles(principle_ids)`:
`self.principles = [id_to_principle[pid] for pid in principle_ids if pid in id_to_principle]`
and `updated_at` is refreshed; the wall-clock value `datetime.utcnow().isoformat()`
is an external input, passed here as `now`. -/
def reorder_principles (c : Constitution) (principle_ids : List String) (now : String) :
    Constitution :=
  { c with
    principles := principle_ids.filterMap (idToPrinciple c.principles)
    updated_at := now }

/-! ### Critique engine data (apps/api/cai_core/critique.py) -/

/-- Result of critiquing a response against a single principle. -/
structure PrincipleCritique where
  principle_id : String
  principle_name : String
  triggered : Bool
  critique_text : String
  severity : ℚ
  suggestions : List String := []
deriving DecidableEq, Repr

/-- A revised response with metadata. -/
structure Revision where
  text : String
  confidence : ℚ
  changes_made : List String := []
deriving DecidableEq, Repr

/-- One complete round of critique and revision. -/
structure CritiqueRound where
  round_number : Nat
  input_response : String
  critiques : List PrincipleCritique
  revised_response : String
  principles_triggered : List String
  confidence : ℚ
  diff_summary : String := ""
deriving DecidableEq, Repr

/-- Complete result of the constitutional critique process. -/
structure CritiqueResult where
  original : String
  final : String
  prompt : String
  rounds : List CritiqueRound
  total_rounds : Nat
  constitution_id : String
  constitution_name : String
  converged : Bool
  total_principles_triggered : List String := []
  improvement_score : ℚ := 0
deriving DecidableEq, Repr

/-! ### Diff summary -/

/-- Python `text.lower().split()`: lower-case, split on whitespace runs,
dropping empty fragments. -/
def pyWords (s : String) : List String :=
  (s.toLower.split Char.isWhitespace).filter (· ≠ "")

/-- First-occurrence deduplication, modelling construction of a Python set from
a list.  Python set iteration order is unspecified (hash-dependent); this
embedding fixes insertion order, and no claim depends on that order. -/
def pySetList (l : List String) : List String :=
  l.foldl (fun acc x => if x ∈ acc then acc else acc ++ [x]) []

/-- Set difference `s1 - s2` as an ordered list under the same convention. -/
def setDiffWords (w1 w2 : List String) : List String :=
  (pySetList w1).filter (fun w => decide (w ∉ w2))

/-- `generate_diff_summary(original, revised)`: word-set deltas (up to 5 examples
each) plus a length-delta clause when the texts differ by more than 50
characters, joined with " | "; fixed sentinels for the equal and
no-qualifying-difference cases. -/
def generate_diff_summary (original revised : String) : String :=
  if original = revised then "No changes made."
  else
    let original_words := pyWords original
    let revised_words := pyWords revised
    let added := setDiffWords revised_words original_words
    let removed := setDiffWords original_words revised_words
    let parts1 : List String :=
      if removed ≠ [] then
        ["Removed concepts: " ++ String.intercalate ", " (removed.take 5)] else []
    let parts2 : List String :=
      if added ≠ [] then
        parts1 ++ ["Added concepts: " ++ String.intercalate ", " (added.take 5)] else parts1
    let len_diff : Int := (revised.length : Int) - (original.length : Int)
    let parts3 : List String :=
      if 50 < len_diff.natAbs then
        if 0 < len_diff then
          parts2 ++ ["Response expanded by ~" ++ toString len_diff.natAbs ++ " characters"]
        else
          parts2 ++ ["Response shortened by ~" ++ toString len_diff.natAbs ++ " characters"]
      else parts2
    if parts3 ≠ [] then String.intercalate " | " parts3 else "Minor phrasing changes."

/-! ### Principle evaluator and response reviser

The Anthropic client is an external capability; each `client.messages.create`
call is modelled by an `Except String String` value (completion text, or the
message of the exception the call raised).  Likewise `re.search(r'\x7b[\s\S]*\x7d', t)`
and `json.loads` are Python-library capabilities, modelled as oracle functions:
`jsonSearch` returns the regex match (first `\x7b` through last `\x7d`, if any)
and `jsonLoads` either parses a JSON object or raises.  A parsed JSON object is
a `CritiqueJson`, with `Option` fields standing for possibly-missing keys
(`result.get(key, default)` becomes `getD`). -/

/-- A parsed critique JSON payload; `none` marks an absent key. -/
structure CritiqueJson where
  triggered : Option Bool
  severity : Option ℚ
  critique : Option String
  suggestions : Option (List String)
deriving DecidableEq, Repr

/-- `generate_critique(response, principle, prompt, client, model)`.  The whole
body sits in one `try`; any raising step (the client call, or `json.loads` on
the extracted match) lands in the `except` branch, which returns the
non-triggered error critique.  When no JSON object is found in the completion,
the fallback dict treats the whole completion as critique prose. -/
def generate_critique (response : String) (principle : Principle) (prompt : String)
    (gen : Except String String)
    (jsonSearch : String → Option String)
    (jsonLoads : String → Except String CritiqueJson) : PrincipleCritique :=
  let body : Except String PrincipleCritique :=
    match gen with
    | .error e => .error e
    | .ok response_text =>
      match
        (match jsonSearch response_text with
         | some s => jsonLoads s
         | none => .ok ⟨some false, some 0, some response_text, some []⟩ : Except String CritiqueJson)
      with
      | .error e => .error e
      | .ok result =>
        .ok { principle_id := principle.id
              principle_name := principle.name
              triggered := result.triggered.getD false
              critique_text := result.critique.getD ""
              severity := result.severity.getD 0
              suggestions := result.suggestions.getD [] }
  match body with
  | .ok c => c
  | .error e =>
    { principle_id := principle.id
      principle_name := principle.name
      triggered := false
      critique_text := "Error during critique: " ++ e
      severity := 0
      suggestions := [] }

/-- `generate_revision(original_response, critiques, prompt, client, model)`.
With no triggered critique it short-circuits before any client call (the `gen`
argument is demonstrably unused on that path).  Otherwise the client call either
yields the revised text (stripped), with confidence `0.5 + similarity * 0.5`,
or raises, in which case the original text is kept with confidence 0. -/
def generate_revision (original_response : String) (critiques : List PrincipleCritique)
    (prompt : String) (gen : Except String String) : Revision :=
  let triggered_critiques := critiques.filter (·.triggered)
  if triggered_critiques.isEmpty then
    { text := original_response
      confidence := 1
      changes_made := ["No changes needed - response already aligns with principles"] }
  else
    match gen with
    | .ok t =>
      let revised_text := t.trim
      let similarity := calculate_text_similarity original_response revised_text
      let confidence := 1/2 + similarity * (1/2)
      { text := revised_text
        confidence := confidence
        changes_made :=
          triggered_critiques.map (fun c => "Addressed " ++ c.principle_name ++ " violation") }
    | .error e =>
      { text := original_response
        confidence := 0
        changes_made := ["Revision failed: " ++ e] }

/-! ### The batch critique loop (constitutional_critique) -/

/-- Oracle bundling the external capabilities one `constitutional_critique` run
consumes: the per-round per-principle critique completions, the per-round
revision completions, and the JSON machinery.  Indexing by round number and
current response keeps distinct calls distinct. -/
structure GenOracle where
  crit : Nat → String → Principle → Except String String
  rev : Nat → String → List PrincipleCritique → Except String String
  jsonSearch : String → Option String
  jsonLoads : String → Except String CritiqueJson

/-- Insertion into the running triggered-name set (`all_triggered_principles.update`).
Python set order is unspecified; insertion order is fixed here and no claim
depends on it. -/
def setInsert (l : List String) (x : String) : List String :=
  if x ∈ l then l else l ++ [x]

/-- One iteration body of the `constitutional_critique` loop: the per-principle
critiques (`asyncio.gather` returns them in task order, i.e. in
enabled-principle order, hence the `map`), the triggered names, the revision,
the diff summary, and the recorded `CritiqueRound`. -/
def critiqueRoundBody (oracle : GenOracle) (prompt : String)
    (enabled : List Principle) (round_num : Nat) (current : String) : CritiqueRound :=
  let critiques := enabled.map (fun p =>
    generate_critique current p prompt (oracle.crit round_num current p)
      oracle.jsonSearch oracle.jsonLoads)
  let round_triggered := (critiques.filter (·.triggered)).map (·.principle_name)
  let revision := generate_revision current critiques prompt
    (oracle.rev round_num current critiques)
  { round_number := round_num
    input_response := current
    critiques := critiques
    revised_response := revision.text
    principles_triggered := round_triggered
    confidence := revision.confidence
    diff_summary := generate_diff_summary current revision.text }

/-- The `for round_num in range(max_rounds)` loop of `constitutional_critique`.
Returns the final `current_response`, the recorded rounds, and the accumulated
triggered-name set.  The convergence check compares `current` with the round's
revised text; only a below-threshold similarity promotes the revised text to
`current_response`. -/
def critiqueLoop (oracle : GenOracle) (prompt : String) (enabled : List Principle)
    (threshold : ℚ) :
    Nat → Nat → String → List CritiqueRound → List String →
    String × List CritiqueRound × List String
  | 0, _, current, rounds, trig => (current, rounds, trig)
  | fuel + 1, round_num, current, rounds, trig =>
    let rd := critiqueRoundBody oracle prompt enabled round_num current
    let trig2 := rd.principles_triggered.foldl setInsert trig
    let rounds2 := rounds ++ [rd]
    if threshold ≤ calculate_text_similarity current rd.revised_response then
      (current, rounds2, trig2)
    else critiqueLoop oracle prompt enabled threshold fuel (round_num + 1)
      rd.revised_response rounds2 trig2

/-- `constitutional_critique(prompt, initial_response, constitution, client,
model, max_rounds, convergence_threshold)`. -/
def constitutional_critique (prompt initial_response : String)
    (constitution : Constitution) (oracle : GenOracle)
    (max_rounds : Nat := 3) (convergence_threshold : ℚ := 98/100) : CritiqueResult :=
  let enabled := constitution.get_enabled_principles
  let out := critiqueLoop oracle prompt enabled convergence_threshold
    max_rounds 0 initial_response [] []
  { original := initial_response
    final := out.1
    prompt := prompt
    rounds := out.2.1
    total_rounds := out.2.1.length
    constitution_id := constitution.id
    constitution_name := constitution.name
    converged := decide (out.2.1.length < max_rounds)
    total_principles_triggered := out.2.2
    improvement_score := 1 - calculate_text_similarity initial_response out.1 }

/-! ### The streaming variant (apps/api/services/cai_engine.py,
`CAIEngineService.run_full_pipeline_streaming`)

The generator's `yield` statements carry no state, so the embedding keeps only
the state evolution and the final `complete` payload.  Unlike the batch loop,
client calls here are not wrapped in `try`, so a raising call propagates: the
run result is an `Except`.  The per-critique JSON handling slices the completion
from the first `\x7b` to the last `\x7d` (`find`/`rfind`) and parses it inside a
bare `try/except: pass`, appending a critique dict only when `triggered` is
truthy. -/

/-- Python `text.find(c)`: index of the first occurrence, if any. -/
def strFindIdx (cs : List Char) (c : Char) : Option Nat :=
  cs.findIdx? (· == c)

/-- Python `text.rfind(c)`: index of the last occurrence, if any. -/
def strRFindIdx (cs : List Char) (c : Char) : Option Nat :=
  match cs.reverse.findIdx? (· == c) with
  | some k => some (cs.length - 1 - k)
  | none => none

/-- The slice `text[start:end]` with `start = text.find("\x7b")` and
`end = text.rfind("\x7d") + 1`, taken only when `start >= 0 and end > start`.
The brace characters are written via their code points 123 and 125. -/
def braceSlice (text : String) : Option String :=
  let cs := text.data
  match strFindIdx cs (Char.ofNat 123), strRFindIdx cs (Char.ofNat 125) with
  | some start, some stop =>
    if start < stop + 1 then some (String.mk ((cs.drop start).take (stop + 1 - start)))
    else none
  | some _, none => none
  | none, _ => none

/-- Oracle for one streaming run: the initial generation, the per-round
per-principle critique completions, the per-round revision completions, and
`json.loads`. -/
structure StreamOracle where
  init : Except String String
  crit : Nat → String → Principle → Except String String
  rev : Nat → String → List PrincipleCritique → Except String String
  jsonLoads : String → Except String CritiqueJson

/-- The final `result` payload of the streaming `complete` event. -/
structure StreamResult where
  original : String
  final : String
  prompt : String
  rounds : List CritiqueRound
  total_rounds : Nat
  constitution_id : String
  constitution_name : String
  converged : Bool
  total_principles_triggered : List String
  improvement_score : ℚ
deriving DecidableEq, Repr

/-- The per-round critique collection of the streaming loop: iterate the
constitution's principles (skipping disabled ones), call the client (an error
propagates), extract and parse the JSON slice (`except: pass` drops parse
failures), and record a critique dict only for truthy `triggered`, with
severity defaulting to 0.5.  Also accumulates `principles_triggered` (ids). -/
def streamRoundCritiques (oracle : StreamOracle) (round_num : Nat) (current : String) :
    List Principle → List PrincipleCritique × List String →
    Except String (List PrincipleCritique × List String)
  | [], acc => .ok acc
  | p :: ps, acc =>
    if p.enabled then
      match oracle.crit round_num current p with
      | .error e => .error e
      | .ok critique_text =>
        match braceSlice critique_text with
        | some s =>
          match oracle.jsonLoads s with
          | .ok d =>
            if d.triggered.getD false then
              streamRoundCritiques oracle round_num current ps
                (acc.1 ++ [{ principle_id := p.id
                             principle_name := p.name
                             triggered := true
                             critique_text := d.critique.getD ""
                             severity := d.severity.getD (1/2)
                             suggestions := d.suggestions.getD [] }],
                 acc.2 ++ [p.id])
            else streamRoundCritiques oracle round_num current ps acc
          | .error _ => streamRoundCritiques oracle round_num current ps acc
        | none => streamRoundCritiques oracle round_num current ps acc
    else streamRoundCritiques oracle round_num current ps acc

/-- The `for round_num in range(max_rounds)` loop of the streaming pipeline.
An empty critique list records a synthetic converged round (confidence 1) and
breaks; otherwise the revision client call produces the next response and the
round is recorded with confidence `1.0 - len(critiques) * 0.1`. -/
def streamLoop (oracle : StreamOracle) (prompt : String) (ps : List Principle) :
    Nat → Nat → String → List CritiqueRound → List String →
    Except String (String × List CritiqueRound × List String)
  | 0, _, current, rounds, allTrig => .ok (current, rounds, allTrig)
  | fuel + 1, round_num, current, rounds, allTrig =>
    match streamRoundCritiques oracle round_num current ps ([], []) with
    | .error e => .error e
    | .ok (critiques, principles_triggered) =>
      if critiques.isEmpty then
        .ok (current,
          rounds ++ [{ round_number := round_num
                       input_response := current
                       critiques := critiques
                       revised_response := current
                       principles_triggered := principles_triggered
                       confidence := 1
                       diff_summary := "No changes needed - response aligns with all principles." }],
          allTrig)
      else
        match oracle.rev round_num current critiques with
        | .error e => .error e
        | .ok revised_text =>
          streamLoop oracle prompt ps fuel (round_num + 1) revised_text
            (rounds ++ [{ round_number := round_num
                          input_response := current
                          critiques := critiques
                          revised_response := revised_text
                          principles_triggered := principles_triggered
                          confidence := 1 - (critiques.length : ℚ) * (1/10)
                          diff_summary := "Addressed " ++ toString critiques.length
                            ++ " principle(s)" }])
            (allTrig ++ principles_triggered)

/-- `run_full_pipeline_streaming(prompt, constitution, max_rounds, model)`:
initial generation, the round loop, then the `complete` event's `result` dict.
`converged` is `len(rounds) < max_rounds or not rounds[-1]["critiques"]`; the
`rounds[-1]` access on an empty list raises `IndexError` (reachable only with
`max_rounds = 0`), modelled as an error outcome.  `improvement_score` is the
literal 0.0 of the source. -/
def run_full_pipeline_streaming (prompt : String) (constitution : Constitution)
    (oracle : StreamOracle) (max_rounds : Nat := 3) : Except String StreamResult :=
  match oracle.init with
  | .error e => .error e
  | .ok initial_text =>
    match streamLoop oracle prompt constitution.principles max_rounds 0 initial_text [] [] with
    | .error e => .error e
    | .ok out =>
      match
        (if out.2.1.length < max_rounds then Except.ok true
         else
           match out.2.1.getLast? with
           | some r => Except.ok r.critiques.isEmpty
           | none => Except.error "IndexError: list index out of range"
         : Except String Bool)
      with
      | .error e => .error e
      | .ok conv =>
        .ok { original := initial_text
              final := out.1
              prompt := prompt
              rounds := out.2.1
              total_rounds := out.2.1.length
              constitution_id := constitution.id
              constitution_name := constitution.name
              converged := conv
              total_principles_triggered := pySetList out.2.2
              improvement_score := 0 }

/-! ### Proof-support definitions -/

/-- Range discipline of a matching block relative to `[alo, ahi) × [blo, bhi)`. -/
def MBounds (alo blo ahi bhi : Nat) (m : MatchBlock) : Prop :=
  alo ≤ m.a ∧ blo ≤ m.b ∧ m.a + m.size ≤ ahi ∧ m.b + m.size ≤ bhi

/-- Length of the diagonal match chain ending at position `t` when `a` is
matched against itself over the full range: positions whose character was
purged from `b2j` (autojunk) break the chain. -/
def dchain (a : List Char) : Nat → Nat
  | 0 => if b2j a (a.getD 0 dfltChar) = [] then 0 else 1
  | t + 1 => if b2j a (a.getD (t + 1) dfltChar) = [] then 0 else dchain a t + 1

/-! ### Concrete fixtures used by witnesses and counterexamples -/

/-- A minimal principle with the given id and name. -/
def mkPrinciple (pid pname : String) : Principle :=
  { id := pid
    name := pname
    description := ""
    category := PrincipleCategory.custom
    critique_prompt := ""
    revision_prompt := "" }

/-- A minimal constitution holding the given principles. -/
def mkConstitution (ps : List Principle) : Constitution :=
  { id := "const-1"
    name := "Demo"
    description := ""
    principles := ps }

/-- A generation oracle whose every call raises. -/
def errOracle : GenOracle :=
  { crit := fun _ _ _ => Except.error "boom"
    rev := fun _ _ _ => Except.error "boom"
    jsonSearch := fun _ => none
    jsonLoads := fun _ => Except.error "bad json" }

/-- The single-principle demo constitution. -/
def demoConstitution : Constitution := mkConstitution [mkPrinciple "p1" "P1"]

/-- The round recorded by one run of the batch loop over `demoConstitution`
with the always-raising oracle: the critique call errs (non-triggered error
critique), the revision short-circuits, and the round converges. -/
def demoRound : CritiqueRound :=
  { round_number := 0
    input_response := "hello"
    critiques := [{ principle_id := "p1"
                    principle_name := "P1"
                    triggered := false
                    critique_text := "Error during critique: boom"
                    severity := 0
                    suggestions := [] }]
    revised_response := "hello"
    principles_triggered := []
    confidence := 1
    diff_summary := "No changes made." }

/-- A streaming oracle whose critique calls produce a parsed, triggered JSON
payload. -/
def streamTrigOracle : StreamOracle :=
  { init := Except.ok "hello"
    crit := fun _ _ _ => Except.ok "{}"
    rev := fun _ _ _ => Except.ok "revised"
    jsonLoads := fun _ => Except.ok ⟨some true, some (1/2), some "bad", some []⟩ }

/-- The critique dict the streaming demo run records. -/
def demoStreamCritique : PrincipleCritique :=
  { principle_id := "p1"
    principle_name := "P1"
    triggered := true
    critique_text := "bad"
    severity := 1/2
    suggestions := [] }

/-- The round the streaming demo run records. -/
def demoStreamRound : CritiqueRound :=
  { round_number := 0
    input_response := "hello"
    critiques := [demoStreamCritique]
    revised_response := "revised"
    principles_triggered := ["p1"]
    confidence := 1 - ((1 : Nat) : ℚ) * (1/10)
    diff_summary := "Addressed 1 principle(s)" }

/-- The result of the streaming demo run over `demoConstitution` with
`streamTrigOracle` and a one-round budget. -/
def demoStreamResult : StreamResult :=
  { original := "hello"
    final := "revised"
    prompt := "p"
    rounds := [demoStreamRound]
    total_rounds := 1
    constitution_id := "const-1"
    constitution_name := "Demo"
    converged := false
    total_principles_triggered := ["p1"]
    improvement_score := 0 }

end CAI

namespace CAI

/-- Invariant preservation along a left fold, membership form. -/
theorem foldl_mem_inv {α β : Type _} (f : α → β → α) (P : α → Prop)
    (l : List β) (init : α) (h0 : P init)
    (hstep : ∀ a x, x ∈ l → P a → P (f a x)) : P (l.foldl f init) := by
  induction l generalizing init with
  | nil => exact h0
  | cons b l ih =>
    exact ih (f init b) (hstep init b (List.mem_cons_self b l) h0)
      (fun a x hx ha => hstep a x (List.mem_cons_of_mem b hx) ha)

/-- Invariant preservation along a left fold over `List.range' s n`, indexed form. -/
theorem foldl_range'_inv {α : Type _} (f : α → Nat → α) (P : Nat → α → Prop)
    (n : Nat) : ∀ (s : Nat) (init : α), P s init →
    (∀ i x, s ≤ i → i < s + n → P i x → P (i + 1) (f x i)) →
    P (s + n) ((List.range' s n).foldl f init) := by
  induction n with
  | zero =>
    intro s init h0 _
    simpa using h0
  | succ n ih =>
    intro s init h0 hstep
    have h1 : P (s + 1) (f init s) := hstep s init (le_refl s) (by omega) h0
    have h2 := ih (s + 1) (f init s) h1
      (fun i x hi hi2 hx => hstep i x (by omega) (by omega) hx)
    have hr : List.range' s (n + 1) = s :: List.range' (s + 1) n := List.range'_succ s n 1
    have hidx : s + 1 + n = s + (n + 1) := by omega
    rw [hr]
    rw [hidx] at h2
    simpa using h2

/-- Membership in a row's position list pins the position inside `[blo, bhi)`. -/
theorem rowPositions_mem {a b : List Char} {blo bhi i j : Nat}
    (h : j ∈ rowPositions a b blo bhi i) : blo ≤ j ∧ j < bhi := by
  have := List.of_mem_filter h
  simpa using this

/-- A true backward-extension guard forces both block starts to be interior. -/
theorem backCond_true {a b : List Char} {jc : Char → Bool} {alo blo : Nat} {m : MatchBlock}
    (h : backCond a b jc alo blo m = true) : alo < m.a ∧ blo < m.b := by
  simp only [backCond, Bool.and_eq_true, decide_eq_true_eq] at h
  exact ⟨h.1.1.1, h.1.1.2⟩

/-- A true forward-extension guard keeps the block end strictly inside. -/
theorem fwdCond_true {a b : List Char} {jc : Char → Bool} {ahi bhi : Nat} {m : MatchBlock}
    (h : fwdCond a b jc ahi bhi m = true) : m.a + m.size < ahi ∧ m.b + m.size < bhi := by
  simp only [fwdCond, Bool.and_eq_true, decide_eq_true_eq] at h
  exact ⟨h.1.1.1, h.1.1.2⟩

/-- The backward extension loop preserves range discipline. -/
theorem extendWhile_back_bounds (a b : List Char) (jc : Char → Bool)
    (alo blo ahi bhi : Nat) :
    ∀ (fuel : Nat) (m : MatchBlock), MBounds alo blo ahi bhi m →
    MBounds alo blo ahi bhi
      (extendWhile (fun m => backCond a b jc alo blo m) backStep fuel m) := by
  intro fuel
  induction fuel with
  | zero => intro m hm; exact hm
  | succ fuel ih =>
    intro m hm
    simp only [extendWhile]
    by_cases hc : backCond a b jc alo blo m = true
    · rw [if_pos hc]
      obtain ⟨h1, h2⟩ := backCond_true hc
      obtain ⟨b1, b2, b3, b4⟩ := hm
      exact ih (backStep m) ⟨by simp [backStep]; omega, by simp [backStep]; omega,
        by simp [backStep]; omega, by simp [backStep]; omega⟩
    · rw [if_neg hc]
      exact hm

/-- The forward extension loop preserves range discipline. -/
theorem extendWhile_fwd_bounds (a b : List Char) (jc : Char → Bool)
    (alo blo ahi bhi : Nat) :
    ∀ (fuel : Nat) (m : MatchBlock), MBounds alo blo ahi bhi m →
    MBounds alo blo ahi bhi
      (extendWhile (fun m => fwdCond a b jc ahi bhi m) fwdStep fuel m) := by
  intro fuel
  induction fuel with
  | zero => intro m hm; exact hm
  | succ fuel ih =>
    intro m hm
    simp only [extendWhile]
    by_cases hc : fwdCond a b jc ahi bhi m = true
    · rw [if_pos hc]
      obtain ⟨h1, h2⟩ := fwdCond_true hc
      obtain ⟨b1, b2, b3, b4⟩ := hm
      exact ih (fwdStep m) ⟨by simp [fwdStep]; omega, by simp [fwdStep]; omega,
        by simp [fwdStep]; omega, by simp [fwdStep]; omega⟩
    · rw [if_neg hc]
      exact hm

/-- The dynamic-programming phase of `find_longest_match` returns a block inside
the requested ranges. -/
theorem flmDP_bounds (a b : List Char) (alo ahi blo bhi : Nat)
    (hab : alo ≤ ahi) (hbb : blo ≤ bhi) :
    MBounds alo blo ahi bhi (flmDP a b alo ahi blo bhi) := by
  have key := foldl_range'_inv (flmRow a b blo bhi)
    (fun (i : Nat) (st : (Nat → Nat) × MatchBlock) =>
      (∀ t, st.1 t ≠ 0 → st.1 t + blo ≤ t + 1 ∧ st.1 t + alo ≤ i) ∧
      alo ≤ st.2.a ∧ blo ≤ st.2.b ∧ st.2.a + st.2.size ≤ i ∧ st.2.b + st.2.size ≤ bhi)
    (ahi - alo) alo (fun _ => 0, ⟨alo, blo, 0⟩)
    ⟨fun t ht => absurd rfl ht, le_refl alo, le_refl blo,
      (by show alo + 0 ≤ alo; omega), (by show blo + 0 ≤ bhi; omega)⟩
    (by
      intro i st hi _ hP
      obtain ⟨hmap, hpa, hpb, hps, hpt⟩ := hP
      have inner := foldl_mem_inv (flmStep st.1 i)
        (fun (st2 : (Nat → Nat) × MatchBlock) =>
          (∀ t, st2.1 t ≠ 0 → st2.1 t + blo ≤ t + 1 ∧ st2.1 t + alo ≤ i + 1) ∧
          alo ≤ st2.2.a ∧ blo ≤ st2.2.b ∧ st2.2.a + st2.2.size ≤ i + 1 ∧
          st2.2.b + st2.2.size ≤ bhi)
        (rowPositions a b blo bhi i) (fun _ => 0, st.2)
        ⟨fun t ht => absurd rfl ht, hpa, hpb,
          (by show st.2.a + st.2.size ≤ i + 1; omega), hpt⟩
        (by
          intro st2 j hj hQ
          obtain ⟨hjlo, hjhi⟩ := rowPositions_mem hj
          obtain ⟨hmap2, ha2, hb2, hs2, ht2⟩ := hQ
          have hk : ((if j = 0 then 0 else st.1 (j - 1)) + 1) + blo ≤ j + 1 ∧
              ((if j = 0 then 0 else st.1 (j - 1)) + 1) + alo ≤ i + 1 := by
            by_cases hj0 : j = 0
            · subst hj0
              simp only [if_true, eq_self_iff_true]
              omega
            · rw [if_neg hj0]
              by_cases hv : st.1 (j - 1) = 0
              · rw [hv]; omega
              · have := hmap (j - 1) hv
                omega
          constructor
          · intro t ht
            simp only [flmStep] at ht ⊢
            by_cases htj : t = j
            · subst htj
              rw [if_pos rfl]
              exact hk
            · rw [if_neg htj] at ht ⊢
              exact hmap2 t ht
          · simp only [flmStep]
            by_cases hlt : st2.2.size < (if j = 0 then 0 else st.1 (j - 1)) + 1
            · rw [if_pos hlt]
              refine ⟨?_, ?_, ?_, ?_⟩ <;> (dsimp only; omega)
            · rw [if_neg hlt]
              exact ⟨ha2, hb2, hs2, ht2⟩)
      obtain ⟨hm3, h3⟩ := inner
      exact ⟨fun t ht => ⟨(hm3 t ht).1, (hm3 t ht).2⟩, h3⟩)
  have hix : alo + (ahi - alo) = ahi := by omega
  rw [hix] at key
  exact key.2

/-- `find_longest_match` returns a block inside the requested ranges. -/
theorem find_longest_match_bounds (a b : List Char) (junk : Char → Bool)
    (alo ahi blo bhi : Nat) (hab : alo ≤ ahi) (hbb : blo ≤ bhi) :
    MBounds alo blo ahi bhi (find_longest_match a b junk alo ahi blo bhi) := by
  have h0 := flmDP_bounds a b alo ahi blo bhi hab hbb
  simp only [find_longest_match]
  apply extendWhile_fwd_bounds
  apply extendWhile_back_bounds
  apply extendWhile_fwd_bounds
  apply extendWhile_back_bounds
  exact h0

/-- Match totals add over list concatenation. -/
theorem matchTotal_append (l1 l2 : List MatchBlock) :
    matchTotal (l1 ++ l2) = matchTotal l1 + matchTotal l2 := by
  simp [matchTotal]

/-- The recursive block discovery matches at most the length of each range. -/
theorem matchingBlocksRec_sum (a b : List Char) (junk : Char → Bool) :
    ∀ (fuel alo ahi blo bhi : Nat), alo ≤ ahi → blo ≤ bhi →
    matchTotal (matchingBlocksRec a b junk fuel alo ahi blo bhi) ≤ ahi - alo ∧
    matchTotal (matchingBlocksRec a b junk fuel alo ahi blo bhi) ≤ bhi - blo := by
  intro fuel
  induction fuel with
  | zero =>
    intro alo ahi blo bhi _ _
    simp [matchingBlocksRec, matchTotal]
  | succ fuel ih =>
    intro alo ahi blo bhi hab hbb
    simp only [matchingBlocksRec]
    obtain ⟨hma, hmb, hsa, hsb⟩ := find_longest_match_bounds a b junk alo ahi blo bhi hab hbb
    set m := find_longest_match a b junk alo ahi blo bhi with hm
    by_cases hz : m.size = 0
    · simp [hz, matchTotal]
    · rw [if_neg hz]
      have hL : matchTotal (if alo < m.a ∧ blo < m.b then
          matchingBlocksRec a b junk fuel alo m.a blo m.b else []) ≤ m.a - alo ∧
          matchTotal (if alo < m.a ∧ blo < m.b then
          matchingBlocksRec a b junk fuel alo m.a blo m.b else []) ≤ m.b - blo := by
        by_cases hg : alo < m.a ∧ blo < m.b
        · rw [if_pos hg]
          exact ih alo m.a blo m.b (by omega) (by omega)
        · rw [if_neg hg]
          simp [matchTotal]
      have hR : matchTotal (if m.a + m.size < ahi ∧ m.b + m.size < bhi then
          matchingBlocksRec a b junk fuel (m.a + m.size) ahi (m.b + m.size) bhi else []) ≤
          ahi - (m.a + m.size) ∧
          matchTotal (if m.a + m.size < ahi ∧ m.b + m.size < bhi then
          matchingBlocksRec a b junk fuel (m.a + m.size) ahi (m.b + m.size) bhi else []) ≤
          bhi - (m.b + m.size) := by
        by_cases hg : m.a + m.size < ahi ∧ m.b + m.size < bhi
        · rw [if_pos hg]
          exact ih (m.a + m.size) ahi (m.b + m.size) bhi (by omega) (by omega)
        · rw [if_neg hg]
          simp [matchTotal]
      rw [matchTotal_append, matchTotal_append]
      have hmid : matchTotal [m] = m.size := by simp [matchTotal]
      rw [hmid]
      omega

/-- Insertion into the sorted block list preserves the match total. -/
theorem matchTotal_insertBlock (x : MatchBlock) (l : List MatchBlock) :
    matchTotal (insertBlock x l) = x.size + matchTotal l := by
  induction l with
  | nil => simp [insertBlock, matchTotal]
  | cons y l ih =>
    simp only [insertBlock]
    by_cases h : blockLE x y = true
    · rw [if_pos h]
      simp [matchTotal]
    · rw [if_neg h]
      have : matchTotal (y :: insertBlock x l) = y.size + matchTotal (insertBlock x l) := by
        simp [matchTotal]
      rw [this, ih]
      have : matchTotal (y :: l) = y.size + matchTotal l := by simp [matchTotal]
      rw [this]
      omega

/-- Sorting preserves the match total. -/
theorem matchTotal_sortBlocks (l : List MatchBlock) :
    matchTotal (sortBlocks l) = matchTotal l := by
  induction l with
  | nil => rfl
  | cons x l ih =>
    simp only [sortBlocks]
    rw [matchTotal_insertBlock, ih]
    simp [matchTotal]

/-- Collapsing adjacent blocks preserves the match total (plus the carried size). -/
theorem matchTotal_collapseAux :
    ∀ (l : List MatchBlock) (i1 j1 k1 : Nat),
    matchTotal (collapseAux i1 j1 k1 l) = k1 + matchTotal l := by
  intro l
  induction l with
  | nil =>
    intro i1 j1 k1
    by_cases h : k1 = 0
    · simp [collapseAux, h, matchTotal]
    · simp [collapseAux, h, matchTotal]
  | cons m rest ih =>
    intro i1 j1 k1
    simp only [collapseAux]
    by_cases h : i1 + k1 = m.a ∧ j1 + k1 = m.b
    · rw [if_pos h, ih]
      simp only [matchTotal, List.map_cons, List.sum_cons]
      omega
    · rw [if_neg h, matchTotal_append, ih]
      have hc : matchTotal (m :: rest) = m.size + matchTotal rest := by
        simp [matchTotal]
      rw [hc]
      by_cases hk : k1 = 0
      · subst hk
        simp [matchTotal]
      · have hcond : (if k1 ≠ 0 then [(⟨i1, j1, k1⟩ : MatchBlock)] else []) =
            [(⟨i1, j1, k1⟩ : MatchBlock)] := if_pos hk
        rw [hcond]
        simp only [matchTotal, List.map_cons, List.map_nil, List.sum_cons, List.sum_nil]
        omega

/-- The total match count of `get_matching_blocks` is at most each input length. -/
theorem matchTotal_get_matching_blocks (a b : List Char) (junk : Char → Bool) :
    matchTotal (get_matching_blocks a b junk) ≤ a.length ∧
    matchTotal (get_matching_blocks a b junk) ≤ b.length := by
  simp only [get_matching_blocks]
  rw [matchTotal_append, matchTotal_collapseAux, matchTotal_sortBlocks]
  have := matchingBlocksRec_sum a b junk (a.length + b.length + 1) 0 a.length 0 b.length
    (Nat.zero_le _) (Nat.zero_le _)
  have hd : matchTotal [(⟨a.length, b.length, 0⟩ : MatchBlock)] = 0 := by simp [matchTotal]
  rw [hd]
  omega

/-- The sequence-matcher score is always within `[0, 1]`. -/
theorem seqMatcherScore_bounds (a b : List Char) :
    0 ≤ seqMatcherScore a b ∧ seqMatcherScore a b ≤ 1 := by
  obtain ⟨h1, h2⟩ := matchTotal_get_matching_blocks a b (fun _ => false)
  simp only [seqMatcherScore, calcRatioAux]
  by_cases hz : a.length + b.length = 0
  · simp [hz]
  · rw [if_pos hz]
    set M := matchTotal (get_matching_blocks a b (fun _ => false)) with hM
    have hpos : (0 : ℚ) < ((a.length + b.length : Nat) : ℚ) := by
      exact_mod_cast Nat.pos_of_ne_zero hz
    constructor
    · apply div_nonneg
      · positivity
      · exact le_of_lt hpos
    · rw [div_le_one hpos]
      have h2M : 2 * M ≤ a.length + b.length := by omega
      calc (2 * M : ℚ) = ((2 * M : Nat) : ℚ) := by push_cast; ring
        _ ≤ ((a.length + b.length : Nat) : ℚ) := by exact_mod_cast h2M

/-- The repository similarity function is always within `[0, 1]`. -/
theorem calculate_text_similarity_bounds (s t : String) :
    0 ≤ calculate_text_similarity s t ∧ calculate_text_similarity s t ≤ 1 :=
  seqMatcherScore_bounds s.data t.data

/-- Characterization of membership in `charPositions`. -/
theorem charPositions_mem {b : List Char} {c : Char} {j : Nat}
    (h : j ∈ charPositions b c) : j < b.length ∧ b.getD j dfltChar = c := by
  simp only [charPositions, List.mem_filter, List.mem_range] at h
  exact ⟨h.1, by simpa using h.2⟩

/-- Membership in `b2j` implies membership in `charPositions`. -/
theorem b2j_mem {b : List Char} {c : Char} {j : Nat}
    (h : j ∈ b2j b c) : j < b.length ∧ b.getD j dfltChar = c := by
  simp only [b2j] at h
  split at h
  · simp at h
  · exact charPositions_mem h

/-- A position whose character indexes a non-empty `b2j` entry belongs to it. -/
theorem b2j_self_mem {a : List Char} {i : Nat} (hi : i < a.length)
    (h : b2j a (a.getD i dfltChar) ≠ []) : i ∈ b2j a (a.getD i dfltChar) := by
  simp only [b2j] at h ⊢
  by_cases hc : 200 ≤ a.length ∧
      a.length / 100 + 1 < (charPositions a (a.getD i dfltChar)).length
  · rw [if_pos hc] at h
    exact absurd rfl h
  · rw [if_neg hc]
    simp only [charPositions, List.mem_filter, List.mem_range]
    exact ⟨hi, by simp⟩

/-- Every `b2j` entry is strictly increasing. -/
theorem b2j_pairwise (b : List Char) (c : Char) : (b2j b c).Pairwise (· < ·) := by
  simp only [b2j]
  split
  · exact List.Pairwise.nil
  · exact (List.pairwise_lt_range b.length).sublist (List.filter_sublist _)

/-- Over the full self-match range, the row position filter is the identity. -/
theorem rowPositions_self (a : List Char) (i : Nat) :
    rowPositions a a 0 a.length i = b2j a (a.getD i dfltChar) := by
  simp only [rowPositions]
  apply List.filter_eq_self.mpr
  intro j hj
  have := (b2j_mem hj).1
  simp [this]

/-- `dchain` at an unavailable position is zero. -/
theorem dchain_of_empty {a : List Char} {t : Nat}
    (h : b2j a (a.getD t dfltChar) = []) : dchain a t = 0 := by
  cases t with
  | zero =>
    simp only [dchain]
    rw [if_pos h]
  | succ t =>
    simp only [dchain]
    rw [if_pos h]

/-- `dchain` at an available position is at least one. -/
theorem dchain_pos {a : List Char} {t : Nat}
    (h : b2j a (a.getD t dfltChar) ≠ []) : 1 ≤ dchain a t := by
  cases t with
  | zero =>
    simp only [dchain]
    rw [if_neg h]
  | succ t =>
    simp only [dchain]
    rw [if_neg h]
    omega

/-- `dchain` step at an available successor position. -/
theorem dchain_succ {a : List Char} {t : Nat}
    (h : b2j a (a.getD (t + 1) dfltChar) ≠ []) :
    dchain a (t + 1) = dchain a t + 1 := by
  simp only [dchain]
  rw [if_neg h]

/-- `dchain` at an available zero position. -/
theorem dchain_zero {a : List Char}
    (h : b2j a (a.getD 0 dfltChar) ≠ []) : dchain a 0 = 1 := by
  simp only [dchain]
  rw [if_neg h]

/-- The map component of the inner DP fold: positions visited hold their chain
value (computed from the previous row only), others keep the initial value. -/
theorem foldl_flmStep_map (mpPrev : Nat → Nat) (i : Nat) :
    ∀ (l : List Nat) (mp0 : Nat → Nat) (m0 : MatchBlock) (t : Nat),
    ((l.foldl (flmStep mpPrev i) (mp0, m0)).1) t =
      if t ∈ l then (if t = 0 then 0 else mpPrev (t - 1)) + 1 else mp0 t := by
  intro l
  induction l with
  | nil =>
    intro mp0 m0 t
    simp
  | cons j l ih =>
    intro mp0 m0 t
    simp only [List.foldl_cons]
    rw [ih]
    by_cases htl : t ∈ l
    · simp [htl]
    · by_cases htj : t = j
      · subst htj
        simp [htl, flmStep]
      · simp [htl, htj, flmStep, List.mem_cons]

/-- The best component of the inner DP fold is unchanged when every visited
position's chain value is dominated by the current best size. -/
theorem foldl_flmStep_best (mpPrev : Nat → Nat) (i : Nat) :
    ∀ (l : List Nat) (mp0 : Nat → Nat) (m0 : MatchBlock),
    (∀ j ∈ l, (if j = 0 then 0 else mpPrev (j - 1)) + 1 ≤ m0.size) →
    ((l.foldl (flmStep mpPrev i) (mp0, m0)).2) = m0 := by
  intro l
  induction l with
  | nil =>
    intro mp0 m0 _
    rfl
  | cons j l ih =>
    intro mp0 m0 hdom
    simp only [List.foldl_cons]
    have hj := hdom j (List.mem_cons_self j l)
    have hstep : flmStep mpPrev i (mp0, m0) j =
        (fun t => if t = j then (if j = 0 then 0 else mpPrev (j - 1)) + 1 else mp0 t, m0) := by
      simp only [flmStep]
      have : ¬(m0.size < (if j = 0 then 0 else mpPrev (j - 1)) + 1) := by omega
      rw [if_neg this]
    rw [hstep]
    exact ih _ m0 (fun x hx => hdom x (List.mem_cons_of_mem j hx))

/-- On a self match over the full range, the DP phase of `find_longest_match`
returns a diagonal block: the tie-breaking of the dynamic program (earliest row,
then earliest column, strict improvement only) always leaves a best block with
equal start positions.  The invariant tracks the diagonal chain `dchain`. -/
theorem flmDP_self_diag (a : List Char) :
    (flmDP a a 0 a.length 0 a.length).a = (flmDP a a 0 a.length 0 a.length).b := by
  have key := foldl_range'_inv (flmRow a a 0 a.length)
    (fun (i : Nat) (st : (Nat → Nat) × MatchBlock) =>
      st.2.a = st.2.b ∧
      (∀ t, t < i → dchain a t ≤ st.2.size) ∧
      (∀ t, st.1 t ≤ dchain a t) ∧
      (∀ t, t + 1 = i → st.1 t = dchain a t) ∧
      (∀ t, st.1 t ≠ 0 → ∃ r, r + 1 = i ∧ st.1 t ≤ dchain a r))
    (a.length - 0) 0 (fun _ => 0, ⟨0, 0, 0⟩)
    ⟨rfl, fun t ht => absurd ht (by omega), fun t => Nat.zero_le _,
      fun t ht => by omega, fun t ht => absurd rfl ht⟩
    (by
      intro i st hi0 hilt hP
      obtain ⟨hdiag, hD2, hD3, hD4, hD5⟩ := hP
      have hila : i < a.length := by omega
      simp only [flmRow, rowPositions_self]
      by_cases hrow : b2j a (a.getD i dfltChar) = []
      · -- Unavailable row: the inner fold is empty, j2len resets to zero.
        rw [hrow]
        simp only [List.foldl_nil]
        have hdc : dchain a i = 0 := dchain_of_empty hrow
        refine ⟨hdiag, ?_, fun t => Nat.zero_le _, ?_, fun t ht => absurd rfl ht⟩
        · intro t ht
          rcases Nat.lt_or_ge t i with h | h
          · exact hD2 t h
          · have : t = i := by omega
            subst this
            simp [hdc]
        · intro t ht
          have : t = i := by omega
          subst this
          simp [hdc]
      · -- Available row: split the (ascending) position list around the
        -- diagonal position i.
        have hdci : 1 ≤ dchain a i := dchain_pos hrow
        have hmemi : i ∈ b2j a (a.getD i dfltChar) := b2j_self_mem hila hrow
        -- chain value bounds for arbitrary members of the row
        have hKB1 : ∀ j ∈ b2j a (a.getD i dfltChar),
            (if j = 0 then 0 else st.1 (j - 1)) + 1 ≤ dchain a j := by
          intro j hj
          have hchar := (b2j_mem hj).2
          have hAj : b2j a (a.getD j dfltChar) ≠ [] := by
            rw [hchar]
            exact hrow
          by_cases hj0 : j = 0
          · subst hj0
            rw [if_pos rfl, dchain_zero hAj]
          · rw [if_neg hj0]
            obtain ⟨jp, rfl⟩ : ∃ jp, j = jp + 1 := ⟨j - 1, by omega⟩
            rw [dchain_succ hAj]
            simp only [Nat.add_sub_cancel]
            have := hD3 jp
            omega
        have hKB2 : ∀ j ∈ b2j a (a.getD i dfltChar),
            (if j = 0 then 0 else st.1 (j - 1)) + 1 ≤ dchain a i := by
          intro j hj
          by_cases hj0 : j = 0
          · subst hj0
            simpa using hdci
          · rw [if_neg hj0]
            by_cases hv : st.1 (j - 1) = 0
            · rw [hv]
              simpa using hdci
            · obtain ⟨r, hr, hle⟩ := hD5 (j - 1) hv
              by_cases hi00 : i = 0
              · omega
              · obtain ⟨ip, rfl⟩ : ∃ ip, i = ip + 1 := ⟨i - 1, by omega⟩
                rw [dchain_succ hrow]
                have : r = ip := by omega
                subst this
                omega
        have hKB3 : (if i = 0 then 0 else st.1 (i - 1)) + 1 = dchain a i := by
          by_cases hi00 : i = 0
          · subst hi00
            rw [if_pos rfl, dchain_zero hrow]
          · rw [if_neg hi00]
            obtain ⟨ip, rfl⟩ : ∃ ip, i = ip + 1 := ⟨i - 1, by omega⟩
            simp only [Nat.add_sub_cancel]
            rw [dchain_succ hrow, hD4 ip rfl]
        -- split the row positions around i
        obtain ⟨L1, L2, hsplit⟩ := List.append_of_mem hmemi
        have hpw : (b2j a (a.getD i dfltChar)).Pairwise (· < ·) := b2j_pairwise a _
        rw [hsplit] at hpw
        have hpwparts := List.pairwise_append.mp hpw
        have hL1lt : ∀ x ∈ L1, x < i := by
          intro x hx
          exact hpwparts.2.2 x hx i (List.mem_cons_self i L2)
        have hL2gt : ∀ x ∈ L2, i < x := by
          intro x hx
          exact (List.pairwise_cons.mp hpwparts.2.1).1 x hx
        rw [hsplit]
        -- segment 1: strictly earlier columns never beat the running best
        have hseg1 : ((L1.foldl (flmStep st.1 i) (fun _ => 0, st.2)).2) = st.2 := by
          apply foldl_flmStep_best
          intro j hj
          have hjmem : j ∈ b2j a (a.getD i dfltChar) := by
            rw [hsplit]
            exact List.mem_append_left _ hj
          exact le_trans (hKB1 j hjmem) (hD2 j (hL1lt j hj))
        -- segment 2: the diagonal column, possibly updating the best
        have hfold2 : (L1 ++ i :: L2).foldl (flmStep st.1 i) (fun _ => 0, st.2) =
            L2.foldl (flmStep st.1 i)
              (flmStep st.1 i (L1.foldl (flmStep st.1 i) (fun _ => 0, st.2)) i) := by
          rw [List.foldl_append]
          rfl
        set mid := L1.foldl (flmStep st.1 i) (fun _ => 0, st.2) with hmid
        have hmidbest : mid.2 = st.2 := hseg1
        -- the value of the diagonal step
        have hstep2 : (flmStep st.1 i mid i).2 =
            if st.2.size < dchain a i then
              (⟨i + 1 - dchain a i, i + 1 - dchain a i, dchain a i⟩ : MatchBlock)
            else st.2 := by
          simp only [flmStep, hmidbest, hKB3]
        have hstep2size : st.2.size ≤ (flmStep st.1 i mid i).2.size ∧
            dchain a i ≤ (flmStep st.1 i mid i).2.size ∧
            (flmStep st.1 i mid i).2.a = (flmStep st.1 i mid i).2.b := by
          rw [hstep2]
          by_cases hlt : st.2.size < dchain a i
          · rw [if_pos hlt]
            exact ⟨by simp; omega, by simp, rfl⟩
          · rw [if_neg hlt]
            exact ⟨le_refl _, by omega, hdiag⟩
        -- segment 3: later columns never beat the (now diagonal-sized) best
        have hseg3 : ((L2.foldl (flmStep st.1 i) (flmStep st.1 i mid i)).2) =
            (flmStep st.1 i mid i).2 := by
          apply foldl_flmStep_best
          intro j hj
          have hjmem : j ∈ b2j a (a.getD i dfltChar) := by
            rw [hsplit]
            exact List.mem_append_right _ (List.mem_cons_of_mem i hj)
          exact le_trans (hKB2 j hjmem) hstep2size.2.1
        -- assemble the new invariant
        have hmap := foldl_flmStep_map st.1 i (L1 ++ i :: L2) (fun _ => 0) st.2
        refine ⟨?_, ?_, ?_, ?_, ?_⟩
        · rw [hfold2, hseg3]
          exact hstep2size.2.2
        · intro t ht
          rw [hfold2, hseg3]
          rcases Nat.lt_or_ge t i with h | h
          · exact le_trans (hD2 t h) hstep2size.1
          · have : t = i := by omega
            subst this
            exact hstep2size.2.1
        · intro t
          rw [hmap t]
          by_cases htm : t ∈ L1 ++ i :: L2
          · rw [if_pos htm]
            refine hKB1 t ?_
            rw [hsplit]
            exact htm
          · rw [if_neg htm]
            exact Nat.zero_le _
        · intro t2 ht2
          have heq : t2 = i := by omega
          rw [heq, hmap i,
            if_pos (show i ∈ L1 ++ i :: L2 from
              List.mem_append_right _ (List.mem_cons_self i L2))]
          exact hKB3
        · intro t2 ht2
          rw [hmap t2] at ht2 ⊢
          by_cases htm : t2 ∈ L1 ++ i :: L2
          · rw [if_pos htm] at ht2 ⊢
            refine ⟨i, rfl, ?_⟩
            refine hKB2 t2 ?_
            rw [hsplit]
            exact htm
          · rw [if_neg htm] at ht2
            exact absurd rfl ht2)
  have hix : 0 + (a.length - 0) = a.length := by omega
  rw [hix] at key
  exact key.1

/-- On a self match the backward extension loop (with a junk test that always
permits extension) walks a diagonal block all the way back to the start. -/
theorem extendWhile_back_self (a : List Char) (jc : Char → Bool)
    (hjc : ∀ c, jc c = true) :
    ∀ (t fuel s : Nat), t < fuel →
    extendWhile (fun m => backCond a a jc 0 0 m) backStep fuel ⟨t, t, s⟩ =
      ⟨0, 0, s + t⟩ := by
  intro t
  induction t with
  | zero =>
    intro fuel s hf
    obtain ⟨f, rfl⟩ : ∃ f, fuel = f + 1 := ⟨fuel - 1, by omega⟩
    have hcond : backCond a a jc 0 0 ⟨0, 0, s⟩ = false := by
      simp [backCond]
    simp [extendWhile, hcond]
  | succ t ih =>
    intro fuel s hf
    obtain ⟨f, rfl⟩ : ∃ f, fuel = f + 1 := ⟨fuel - 1, by omega⟩
    have hcond : backCond a a jc 0 0 ⟨t + 1, t + 1, s⟩ = true := by
      simp [backCond, hjc]
    have hstep : backStep ⟨t + 1, t + 1, s⟩ = ⟨t, t, s + 1⟩ := rfl
    simp only [extendWhile, hcond, if_true, hstep]
    rw [ih f (s + 1) (by omega)]
    have : s + 1 + t = s + (t + 1) := by omega
    rw [this]

/-- On a self match the forward extension loop (with a junk test that always
permits extension) grows a start-anchored block to the whole range. -/
theorem extendWhile_fwd_self (a : List Char) (jc : Char → Bool)
    (hjc : ∀ c, jc c = true) (hi : Nat) :
    ∀ (fuel s : Nat), hi - s < fuel → s ≤ hi →
    extendWhile (fun m => fwdCond a a jc hi hi m) fwdStep fuel ⟨0, 0, s⟩ =
      ⟨0, 0, hi⟩ := by
  intro fuel
  induction fuel with
  | zero =>
    intro s h1 h2
    omega
  | succ f ih =>
    intro s h1 h2
    by_cases hs : s < hi
    · have hcond : fwdCond a a jc hi hi ⟨0, 0, s⟩ = true := by
        simp [fwdCond, hjc, hs]
      have hstep : fwdStep ⟨0, 0, s⟩ = ⟨0, 0, s + 1⟩ := rfl
      simp only [extendWhile, hcond, if_true, hstep]
      exact ih (s + 1) (by omega) (by omega)
    · have hshi : s = hi := by omega
      subst hshi
      have hcond : fwdCond a a jc s s ⟨0, 0, s⟩ = false := by
        simp [fwdCond, hs]
      simp [extendWhile, hcond]

/-- A backward extension loop whose junk test always refuses is the identity. -/
theorem extendWhile_back_noop (a b : List Char) (jc : Char → Bool)
    (hjc : ∀ c, jc c = false) (alo blo fuel : Nat) (m : MatchBlock) :
    extendWhile (fun m => backCond a b jc alo blo m) backStep fuel m = m := by
  cases fuel with
  | zero => rfl
  | succ f =>
    have hcond : backCond a b jc alo blo m = false := by
      simp [backCond, hjc]
    simp [extendWhile, hcond]

/-- A forward extension loop whose junk test always refuses is the identity. -/
theorem extendWhile_fwd_noop (a b : List Char) (jc : Char → Bool)
    (hjc : ∀ c, jc c = false) (ahi bhi fuel : Nat) (m : MatchBlock) :
    extendWhile (fun m => fwdCond a b jc ahi bhi m) fwdStep fuel m = m := by
  cases fuel with
  | zero => rfl
  | succ f =>
    have hcond : fwdCond a b jc ahi bhi m = false := by
      simp [fwdCond, hjc]
    simp [extendWhile, hcond]

/-- On a non-empty self match over the full range, `find_longest_match` returns
the whole string as one block: the DP best is diagonal, and the two non-junk
extension loops stretch it to both ends. -/
theorem find_longest_match_self (a : List Char) (h1 : 1 ≤ a.length) :
    find_longest_match a a (fun _ => false) 0 a.length 0 a.length =
      ⟨0, 0, a.length⟩ := by
  have hdp := flmDP_self_diag a
  have hbd := flmDP_bounds a a 0 a.length 0 a.length (by omega) (by omega)
  simp only [find_longest_match]
  set m0 := flmDP a a 0 a.length 0 a.length with hm0
  obtain ⟨hb1, hb2, hb3, hb4⟩ := hbd
  have hm0eta : m0 = ⟨m0.a, m0.a, m0.size⟩ := by
    cases hm : m0 with
    | mk x y z =>
      rw [hm] at hdp
      simp at hdp
      rw [hdp]
  rw [hm0eta]
  rw [extendWhile_back_self a (fun c => !false) (fun c => rfl) m0.a _ m0.size (by omega)]
  rw [extendWhile_fwd_self a (fun c => !false) (fun c => rfl) a.length _ (m0.size + m0.a)
    (by omega) (by omega)]
  rw [extendWhile_back_noop a a (fun c => false) (fun c => rfl) 0 0 _ _]
  rw [extendWhile_fwd_noop a a (fun c => false) (fun c => rfl) a.length a.length _ _]

/-- On a self match the matched total is the whole string length. -/
theorem get_matching_blocks_self (a : List Char) :
    matchTotal (get_matching_blocks a a (fun _ => false)) = a.length := by
  by_cases h0 : a.length = 0
  · have ha : a = [] := List.length_eq_zero.mp h0
    subst ha
    rfl
  · have h1 : 1 ≤ a.length := by omega
    simp only [get_matching_blocks]
    obtain ⟨f, hf⟩ : ∃ f, a.length + a.length + 1 = f + 1 :=
      ⟨a.length + a.length, rfl⟩
    rw [hf]
    rw [matchingBlocksRec]
    rw [find_longest_match_self a h1]
    have hsz : ¬((⟨0, 0, a.length⟩ : MatchBlock).size = 0) := by
      simpa using h0
    rw [if_neg hsz]
    have hg1 : ¬((0 : Nat) < (⟨0, 0, a.length⟩ : MatchBlock).a ∧
        (0 : Nat) < (⟨0, 0, a.length⟩ : MatchBlock).b) := by
      simp
    have hg2 : ¬((⟨0, 0, a.length⟩ : MatchBlock).a +
          (⟨0, 0, a.length⟩ : MatchBlock).size < a.length ∧
        (⟨0, 0, a.length⟩ : MatchBlock).b +
          (⟨0, 0, a.length⟩ : MatchBlock).size < a.length) := by
      simp
    rw [if_neg hg1, if_neg hg2]
    have hsort : sortBlocks ([] ++ [(⟨0, 0, a.length⟩ : MatchBlock)] ++ []) =
        [(⟨0, 0, a.length⟩ : MatchBlock)] := rfl
    rw [hsort]
    have hcoll : collapseAux 0 0 0 [(⟨0, 0, a.length⟩ : MatchBlock)] =
        [(⟨0, 0, a.length⟩ : MatchBlock)] := by
      simp only [collapseAux]
      rw [if_pos (by simp), if_pos (by simpa using h0)]
      simp
    rw [hcoll]
    simp [matchTotal]

/-- On a self match the sequence-matcher score is exactly one. -/
theorem seqMatcherScore_self (a : List Char) : seqMatcherScore a a = 1 := by
  simp only [seqMatcherScore]
  rw [get_matching_blocks_self]
  simp only [calcRatioAux]
  by_cases h0 : a.length + a.length = 0
  · simp [h0]
  · rw [if_pos h0]
    have hne : ((a.length + a.length : Nat) : ℚ) ≠ 0 := by
      exact_mod_cast h0
    rw [div_eq_one_iff_eq hne]
    push_cast
    ring

/-- The repository similarity function gives exactly one on identical strings. -/
theorem calculate_text_similarity_self (s : String) :
    calculate_text_similarity s s = 1 :=
  seqMatcherScore_self s.data

/-- `generate_critique` labels its result with the evaluated principle's id. -/
theorem generate_critique_principle_id (response : String) (p : Principle)
    (prompt : String) (gen : Except String String)
    (jsonSearch : String → Option String)
    (jsonLoads : String → Except String CritiqueJson) :
    (generate_critique response p prompt gen jsonSearch jsonLoads).principle_id = p.id := by
  simp only [generate_critique]
  cases gen with
  | error e => rfl
  | ok t =>
    cases hs : jsonSearch t with
    | none => simp [hs]
    | some s =>
      cases hl : jsonLoads s with
      | error e => simp [hs, hl]
      | ok d => simp [hs, hl]

/-- `generate_revision` always produces a confidence within `[0, 1]`: 1 on the
short-circuit path, `0.5 + 0.5 * similarity` on success, 0 on failure. -/
theorem generate_revision_confidence_bounds (original_response : String)
    (critiques : List PrincipleCritique) (prompt : String)
    (gen : Except String String) :
    0 ≤ (generate_revision original_response critiques prompt gen).confidence ∧
    (generate_revision original_response critiques prompt gen).confidence ≤ 1 := by
  simp only [generate_revision]
  by_cases he : (critiques.filter (·.triggered)).isEmpty
  · rw [if_pos he]
    norm_num
  · rw [if_neg he]
    cases gen with
    | error e => norm_num
    | ok t =>
      obtain ⟨h0, h1⟩ := calculate_text_similarity_bounds original_response t.trim
      constructor
      · simp only
        nlinarith
      · simp only
        nlinarith

/-- Projection facts for the loop round body. -/
theorem critiqueRoundBody_input (oracle : GenOracle) (prompt : String)
    (enabled : List Principle) (round_num : Nat) (current : String) :
    (critiqueRoundBody oracle prompt enabled round_num current).input_response = current :=
  rfl

/-- The round body's critiques are the per-principle evaluations in order. -/
theorem critiqueRoundBody_critiques (oracle : GenOracle) (prompt : String)
    (enabled : List Principle) (round_num : Nat) (current : String) :
    (critiqueRoundBody oracle prompt enabled round_num current).critiques =
      enabled.map (fun p =>
        generate_critique current p prompt (oracle.crit round_num current p)
          oracle.jsonSearch oracle.jsonLoads) :=
  rfl

/-- The round body's confidence is the revision confidence of that round. -/
theorem critiqueRoundBody_confidence (oracle : GenOracle) (prompt : String)
    (enabled : List Principle) (round_num : Nat) (current : String) :
    (critiqueRoundBody oracle prompt enabled round_num current).confidence =
      (generate_revision current
        (critiqueRoundBody oracle prompt enabled round_num current).critiques prompt
        (oracle.rev round_num current
          (critiqueRoundBody oracle prompt enabled round_num current).critiques)).confidence :=
  rfl

/-- Characterization of the final text returned by the batch critique loop:
either no round ran (the text is unchanged), or the last recorded round either
converged (final text is its pre-revision input, `current` not reassigned) or
the loop stopped by budget exhaustion (final text is its revised text). -/
theorem critiqueLoop_final (oracle : GenOracle) (prompt : String)
    (enabled : List Principle) (threshold : ℚ) :
    ∀ (fuel round_num : Nat) (current : String) (acc : List CritiqueRound)
      (trig : List String),
    ((critiqueLoop oracle prompt enabled threshold fuel round_num current acc trig).2.1 = acc ∧
     (critiqueLoop oracle prompt enabled threshold fuel round_num current acc trig).1 = current) ∨
    (∃ last,
      (critiqueLoop oracle prompt enabled threshold fuel round_num current acc trig).2.1.getLast?
        = some last ∧
      ((threshold ≤ calculate_text_similarity last.input_response last.revised_response ∧
        (critiqueLoop oracle prompt enabled threshold fuel round_num current acc trig).1
          = last.input_response) ∨
       (calculate_text_similarity last.input_response last.revised_response < threshold ∧
        (critiqueLoop oracle prompt enabled threshold fuel round_num current acc trig).1
          = last.revised_response))) := by
  intro fuel
  induction fuel with
  | zero =>
    intro rn current acc trig
    exact Or.inl ⟨rfl, rfl⟩
  | succ fuel ih =>
    intro rn current acc trig
    simp only [critiqueLoop]
    by_cases hconv : threshold ≤ calculate_text_similarity current
        (critiqueRoundBody oracle prompt enabled rn current).revised_response
    · rw [if_pos hconv]
      refine Or.inr ⟨_, List.getLast?_concat acc, Or.inl ⟨?_, ?_⟩⟩
      · rw [critiqueRoundBody_input]
        exact hconv
      · rw [critiqueRoundBody_input]
    · rw [if_neg hconv]
      have hlt := lt_of_not_ge hconv
      rcases ih (rn + 1) (critiqueRoundBody oracle prompt enabled rn current).revised_response
          (acc ++ [critiqueRoundBody oracle prompt enabled rn current])
          (((critiqueRoundBody oracle prompt enabled rn current).principles_triggered).foldl
            setInsert trig) with ⟨h1, h2⟩ | ⟨last, hl, hcases⟩
      · refine Or.inr ⟨critiqueRoundBody oracle prompt enabled rn current, ?_,
          Or.inr ⟨?_, ?_⟩⟩
        · rw [h1]
          exact List.getLast?_concat acc
        · rw [critiqueRoundBody_input]
          exact hlt
        · rw [h2]
      · exact Or.inr ⟨last, hl, hcases⟩

/-- Every round recorded by the batch critique loop carries one critique per
enabled principle, labelled in enabled-principle order. -/
theorem critiqueLoop_critiques_shape (oracle : GenOracle) (prompt : String)
    (enabled : List Principle) (threshold : ℚ) :
    ∀ (fuel round_num : Nat) (current : String) (acc : List CritiqueRound)
      (trig : List String),
    (∀ r ∈ acc, r.critiques.map (·.principle_id) = enabled.map (·.id)) →
    ∀ r ∈ (critiqueLoop oracle prompt enabled threshold fuel round_num current acc trig).2.1,
      r.critiques.map (·.principle_id) = enabled.map (·.id) := by
  intro fuel
  induction fuel with
  | zero =>
    intro rn current acc trig hacc
    exact hacc
  | succ fuel ih =>
    intro rn current acc trig hacc
    have hbody : ∀ r ∈ acc ++ [critiqueRoundBody oracle prompt enabled rn current],
        r.critiques.map (·.principle_id) = enabled.map (·.id) := by
      intro r hr
      rcases List.mem_append.mp hr with h | h
      · exact hacc r h
      · rcases List.mem_singleton.mp h with rfl
        rw [critiqueRoundBody_critiques, List.map_map]
        refine List.map_congr_left ?_
        intro p _
        exact generate_critique_principle_id current p prompt _ _ _
    simp only [critiqueLoop]
    by_cases hconv : threshold ≤ calculate_text_similarity current
        (critiqueRoundBody oracle prompt enabled rn current).revised_response
    · rw [if_pos hconv]
      exact hbody
    · rw [if_neg hconv]
      exact ih (rn + 1) _ _ _ hbody

/-- Every round recorded by the batch critique loop carries a confidence in
`[0, 1]` (it is a `generate_revision` confidence). -/
theorem critiqueLoop_confidence_bounds (oracle : GenOracle) (prompt : String)
    (enabled : List Principle) (threshold : ℚ) :
    ∀ (fuel round_num : Nat) (current : String) (acc : List CritiqueRound)
      (trig : List String),
    (∀ r ∈ acc, 0 ≤ r.confidence ∧ r.confidence ≤ 1) →
    ∀ r ∈ (critiqueLoop oracle prompt enabled threshold fuel round_num current acc trig).2.1,
      0 ≤ r.confidence ∧ r.confidence ≤ 1 := by
  intro fuel
  induction fuel with
  | zero =>
    intro rn current acc trig hacc
    exact hacc
  | succ fuel ih =>
    intro rn current acc trig hacc
    have hbody : ∀ r ∈ acc ++ [critiqueRoundBody oracle prompt enabled rn current],
        0 ≤ r.confidence ∧ r.confidence ≤ 1 := by
      intro r hr
      rcases List.mem_append.mp hr with h | h
      · exact hacc r h
      · rcases List.mem_singleton.mp h with rfl
        rw [critiqueRoundBody_confidence]
        exact generate_revision_confidence_bounds _ _ prompt _
    simp only [critiqueLoop]
    by_cases hconv : threshold ≤ calculate_text_similarity current
        (critiqueRoundBody oracle prompt enabled rn current).revised_response
    · rw [if_pos hconv]
      exact hbody
    · rw [if_neg hconv]
      exact ih (rn + 1) _ _ _ hbody


/-- Every critique recorded by the streaming per-round collection is a
triggered one: non-triggered evaluations are silently dropped. -/
theorem streamRoundCritiques_triggered (oracle : StreamOracle) (rn : Nat)
    (current : String) :
    ∀ (ps : List Principle) (acc out : List PrincipleCritique × List String),
    streamRoundCritiques oracle rn current ps acc = .ok out →
    (∀ c ∈ acc.1, c.triggered = true) →
    ∀ c ∈ out.1, c.triggered = true := by
  intro ps
  induction ps with
  | nil =>
    intro acc out h hacc
    simp only [streamRoundCritiques] at h
    cases h
    exact hacc
  | cons p ps ih =>
    intro acc out h hacc
    simp only [streamRoundCritiques] at h
    by_cases hp : p.enabled = true
    · rw [if_pos hp] at h
      cases hcrit : oracle.crit rn current p with
      | error e =>
        rw [hcrit] at h
        cases h
      | ok text =>
        rw [hcrit] at h
        dsimp only at h
        cases hbs : braceSlice text with
        | none =>
          rw [hbs] at h
          exact ih acc out h hacc
        | some s =>
          rw [hbs] at h
          dsimp only at h
          cases hjl : oracle.jsonLoads s with
          | error e =>
            rw [hjl] at h
            exact ih acc out h hacc
          | ok d =>
            rw [hjl] at h
            dsimp only at h
            by_cases htrig : d.triggered.getD false = true
            · rw [if_pos htrig] at h
              refine ih _ out h ?_
              intro c hc
              rcases List.mem_append.mp hc with hm | hm
              · exact hacc c hm
              · rcases List.mem_singleton.mp hm with rfl
                rfl
            · rw [if_neg htrig] at h
              exact ih acc out h hacc
    · rw [if_neg hp] at h
      exact ih acc out h hacc

/-- Every round recorded by the streaming loop holds only triggered critiques. -/
theorem streamLoop_rounds_triggered (oracle : StreamOracle) (prompt : String)
    (ps : List Principle) :
    ∀ (fuel rn : Nat) (current : String) (rounds : List CritiqueRound)
      (allTrig : List String) (out : String × List CritiqueRound × List String),
    streamLoop oracle prompt ps fuel rn current rounds allTrig = .ok out →
    (∀ r ∈ rounds, ∀ c ∈ r.critiques, c.triggered = true) →
    ∀ r ∈ out.2.1, ∀ c ∈ r.critiques, c.triggered = true := by
  intro fuel
  induction fuel with
  | zero =>
    intro rn current rounds allTrig out h hacc
    simp only [streamLoop] at h
    cases h
    exact hacc
  | succ fuel ih =>
    intro rn current rounds allTrig out h hacc
    simp only [streamLoop] at h
    cases hrc : streamRoundCritiques oracle rn current ps ([], []) with
    | error e =>
      rw [hrc] at h
      cases h
    | ok pair =>
      obtain ⟨cs, trg⟩ := pair
      rw [hrc] at h
      dsimp only at h
      have htrig : ∀ c ∈ cs, c.triggered = true :=
        streamRoundCritiques_triggered oracle rn current ps ([], []) (cs, trg) hrc
          (fun c hc => absurd hc (List.not_mem_nil c))
      by_cases hemp : cs.isEmpty = true
      · rw [if_pos hemp] at h
        cases h
        intro r hr
        rcases List.mem_append.mp hr with hm | hm
        · exact hacc r hm
        · rcases List.mem_singleton.mp hm with rfl
          exact htrig
      · rw [if_neg hemp] at h
        cases hrev : oracle.rev rn current cs with
        | error e =>
          rw [hrev] at h
          cases h
        | ok revised =>
          rw [hrev] at h
          dsimp only at h
          refine ih (rn + 1) revised _ _ out h ?_
          intro r hr
          rcases List.mem_append.mp hr with hm | hm
          · exact hacc r hm
          · rcases List.mem_singleton.mp hm with rfl
            exact htrig

/-- Inversion of a successful streaming run: the initial generation and the
loop succeeded, and the result fields are assembled from the loop output, with
`converged` computed from `len(rounds) < max_rounds or not rounds[-1]["critiques"]`. -/
theorem run_streaming_inversion (prompt : String) (constitution : Constitution)
    (oracle : StreamOracle) (max_rounds : Nat) (res : StreamResult)
    (h : run_full_pipeline_streaming prompt constitution oracle max_rounds = .ok res) :
    ∃ init out,
      oracle.init = .ok init ∧
      streamLoop oracle prompt constitution.principles max_rounds 0 init [] [] = .ok out ∧
      res.rounds = out.2.1 ∧ res.total_rounds = out.2.1.length ∧
      ((out.2.1.length < max_rounds ∧ res.converged = true) ∨
       (¬out.2.1.length < max_rounds ∧
        ∃ lastr, out.2.1.getLast? = some lastr ∧
          res.converged = lastr.critiques.isEmpty)) := by
  simp only [run_full_pipeline_streaming] at h
  cases hinit : oracle.init with
  | error e =>
    rw [hinit] at h
    cases h
  | ok init =>
    rw [hinit] at h
    dsimp only at h
    cases hloop : streamLoop oracle prompt constitution.principles max_rounds 0 init [] [] with
    | error e =>
      rw [hloop] at h
      cases h
    | ok out =>
      rw [hloop] at h
      dsimp only at h
      by_cases hlen : out.2.1.length < max_rounds
      · rw [if_pos hlen] at h
        dsimp only at h
        cases h
        exact ⟨init, out, rfl, hloop, rfl, rfl, Or.inl ⟨hlen, rfl⟩⟩
      · rw [if_neg hlen] at h
        cases hlast : out.2.1.getLast? with
        | none =>
          rw [hlast] at h
          cases h
        | some lastr =>
          rw [hlast] at h
          dsimp only at h
          cases h
          exact ⟨init, out, rfl, hloop, rfl, rfl, Or.inr ⟨hlen, lastr, hlast, rfl⟩⟩

/-- The demo batch round body evaluates to `demoRound`. -/
theorem demoRoundBody_eq :
    critiqueRoundBody errOracle "p" demoConstitution.get_enabled_principles 0 "hello"
      = demoRound := rfl

/-- The one-round demo batch loop converges immediately. -/
theorem demo_batch_loop :
    critiqueLoop errOracle "p" demoConstitution.get_enabled_principles (98/100)
      1 0 "hello" [] [] = ("hello", [demoRound], []) := by
  simp only [critiqueLoop]
  rw [demoRoundBody_eq]
  rw [if_pos (show (98/100 : ℚ) ≤
    calculate_text_similarity "hello" demoRound.revised_response by
      rw [show demoRound.revised_response = "hello" from rfl,
        calculate_text_similarity_self]
      norm_num)]
  rfl

/-- Recorded rounds of the demo batch run. -/
theorem demo_batch_rounds :
    (constitutional_critique "p" "hello" demoConstitution errOracle 1
      (98/100)).rounds = [demoRound] := by
  show (critiqueLoop errOracle "p" demoConstitution.get_enabled_principles (98/100)
    1 0 "hello" [] []).2.1 = [demoRound]
  rw [demo_batch_loop]

/-- The streaming demo run evaluates to `demoStreamResult`. -/
theorem demo_stream_run :
    run_full_pipeline_streaming "p" demoConstitution streamTrigOracle 1 =
      Except.ok demoStreamResult := rfl

/-- Looking up an id through the `reorder_principles` dict returns a principle
carrying exactly that id. -/
theorem idToPrinciple_id_eq {ps : List Principle} {pid : String} {p : Principle}
    (h : idToPrinciple ps pid = some p) : p.id = pid := by
  have hopt : p ∈ (ps.filter (fun q => q.id == pid)).getLast? := Option.mem_def.mpr h
  obtain ⟨hne, heq⟩ := List.mem_getLast?_eq_getLast hopt
  have hmem : p ∈ ps.filter (fun q => q.id == pid) := heq ▸ List.getLast_mem hne
  have := List.of_mem_filter hmem
  simpa using this

end CAI

/-- C9: for a constitution with principles `[a, b, c]`, reordering by
`["c", "x", "a"]` yields exactly `[c, a]`: the unknown id `"x"` is skipped and
the current principle `"b"`, absent from the new order, is dropped. -/
theorem C9_reorder_drops_unknown_and_absent
    (pa pb pc : CAI.Principle) (c : CAI.Constitution) (now : String)
    (ha : pa.id = "a") (hb : pb.id = "b") (hc : pc.id = "c")
    (hps : c.principles = [pa, pb, pc]) :
    (CAI.reorder_principles c ["c", "x", "a"] now).principles = [pc, pa] := by
  simp [CAI.reorder_principles, CAI.idToPrinciple, hps, ha, hb, hc,
    List.filterMap_cons, List.filter]

/-- Witness for C9 at a concrete constitution. -/
theorem C9_reorder_drops_unknown_and_absent_witness :
    (CAI.reorder_principles
      (CAI.mkConstitution
        [CAI.mkPrinciple "a" "A", CAI.mkPrinciple "b" "B", CAI.mkPrinciple "c" "C"])
      ["c", "x", "a"] "2025-01-01T00:00:00").principles =
      [CAI.mkPrinciple "c" "C", CAI.mkPrinciple "a" "A"] :=
  C9_reorder_drops_unknown_and_absent
    (CAI.mkPrinciple "a" "A") (CAI.mkPrinciple "b" "B") (CAI.mkPrinciple "c" "C")
    _ _ rfl rfl rfl rfl

/-- C10: `reorder_principles` does not deduplicate: for any id present in the
constitution, the result contains as many principles carrying that id as the id
occurs in the requested order, so a duplicated id yields duplicate entries and
per-constitution id uniqueness is not preserved. -/
theorem C10_reorder_does_not_deduplicate
    (c : CAI.Constitution) (ids : List String) (now : String)
    (pid : String) (p : CAI.Principle)
    (hp : CAI.idToPrinciple c.principles pid = some p) :
    ((CAI.reorder_principles c ids now).principles.filter (fun q => q.id == pid)).length
      = (ids.filter (fun x => x == pid)).length := by
  simp only [CAI.reorder_principles]
  induction ids with
  | nil => rfl
  | cons x ids ih =>
    by_cases hx : x = pid
    · subst hx
      simp [List.filterMap_cons, hp, List.filter, CAI.idToPrinciple_id_eq hp, ih]
    · have hxf : (x == pid) = false := by simp [hx]
      rcases hq : CAI.idToPrinciple c.principles x with _ | q
      · simpa [List.filterMap_cons, hq, List.filter, hxf] using ih
      · have hqid : q.id = x := CAI.idToPrinciple_id_eq hq
        have hqf : (q.id == pid) = false := by simp [hqid, hx]
        simp [List.filterMap_cons, hq, List.filter, hqf, hxf, ih]

/-- Witness for C10: the id "a" requested twice yields two entries. -/
theorem C10_reorder_does_not_deduplicate_witness :
    CAI.idToPrinciple (CAI.mkConstitution [CAI.mkPrinciple "a" "A"]).principles "a"
        = some (CAI.mkPrinciple "a" "A") ∧
    ((CAI.reorder_principles (CAI.mkConstitution [CAI.mkPrinciple "a" "A"])
        ["a", "a"] "t").principles.filter (fun q => q.id == "a")).length
      = (["a", "a"].filter (fun x => x == "a")).length :=
  ⟨by decide,
   C10_reorder_does_not_deduplicate _ ["a", "a"] "t" "a" (CAI.mkPrinciple "a" "A")
     (by decide)⟩

/-- C4: `generate_critique` never propagates an exception: whichever step of its
body raises (the generation call itself, or `json.loads` on the extracted
payload), the result is the non-triggered critique recording the error message,
with severity 0 and no suggestions. -/
theorem C4_generate_critique_never_raises
    (response prompt e : String) (principle : CAI.Principle)
    (gen : Except String String)
    (jsonSearch : String → Option String)
    (jsonLoads : String → Except String CAI.CritiqueJson)
    (herr : gen = Except.error e ∨
      ∃ t s, gen = Except.ok t ∧ jsonSearch t = some s ∧ jsonLoads s = Except.error e) :
    CAI.generate_critique response principle prompt gen jsonSearch jsonLoads =
      { principle_id := principle.id
        principle_name := principle.name
        triggered := false
        critique_text := "Error during critique: " ++ e
        severity := 0
        suggestions := [] } := by
  rcases herr with h | ⟨t, s, hg, hs, hl⟩
  · subst h
    rfl
  · subst hg
    simp [CAI.generate_critique, hs, hl, Except.bind]

/-- Witness for C4 with an always-throwing generation capability. -/
theorem C4_generate_critique_never_raises_witness :
    CAI.generate_critique "resp" (CAI.mkPrinciple "p1" "P1") "prompt"
        (Except.error "boom") (fun _ => none) (fun _ => Except.error "bad json") =
      { principle_id := "p1"
        principle_name := "P1"
        triggered := false
        critique_text := "Error during critique: " ++ "boom"
        severity := 0
        suggestions := [] } :=
  C4_generate_critique_never_raises "resp" "prompt" "boom" (CAI.mkPrinciple "p1" "P1")
    (Except.error "boom") (fun _ => none) (fun _ => Except.error "bad json")
    (Or.inl rfl)

/-- C1: in `constitutional_critique`, when the last executed round's
similarity(current, revision.text) reaches the convergence threshold the loop
breaks without reassigning `current_response`, so the final text is that
round's pre-revision `input_response`; `current_response` becomes the revised
text only when similarity is strictly below the threshold (in which case, if
that round was the last, the final text is its revised text). -/
theorem C1_convergence_keeps_pre_revision_text
    (prompt initial_response : String) (constitution : CAI.Constitution)
    (oracle : CAI.GenOracle) (max_rounds : Nat) (threshold : ℚ)
    (last : CAI.CritiqueRound)
    (hlast : (CAI.constitutional_critique prompt initial_response constitution oracle
        max_rounds threshold).rounds.getLast? = some last) :
    (threshold ≤ CAI.calculate_text_similarity last.input_response last.revised_response →
      (CAI.constitutional_critique prompt initial_response constitution oracle
        max_rounds threshold).final = last.input_response) ∧
    (CAI.calculate_text_similarity last.input_response last.revised_response < threshold →
      (CAI.constitutional_critique prompt initial_response constitution oracle
        max_rounds threshold).final = last.revised_response) := by
  have hrounds : (CAI.constitutional_critique prompt initial_response constitution oracle
      max_rounds threshold).rounds =
      (CAI.critiqueLoop oracle prompt constitution.get_enabled_principles threshold
        max_rounds 0 initial_response [] []).2.1 := rfl
  have hfinal : (CAI.constitutional_critique prompt initial_response constitution oracle
      max_rounds threshold).final =
      (CAI.critiqueLoop oracle prompt constitution.get_enabled_principles threshold
        max_rounds 0 initial_response [] []).1 := rfl
  rw [hrounds] at hlast
  rw [hfinal]
  rcases CAI.critiqueLoop_final oracle prompt constitution.get_enabled_principles threshold
      max_rounds 0 initial_response [] [] with ⟨h1, _⟩ | ⟨l2, hl2, hcases⟩
  · rw [h1] at hlast
    cases hlast
  · rw [hl2] at hlast
    cases hlast
    rcases hcases with ⟨hge, heq⟩ | ⟨hlt, heq⟩
    · exact ⟨fun _ => heq, fun hc => absurd hge (not_le_of_lt hc)⟩
    · exact ⟨fun hc => absurd hc (not_le_of_lt hlt), fun _ => heq⟩

/-- Witness for C1 at a concrete converging run: the final text is the
pre-revision input of the converging round. -/
theorem C1_convergence_keeps_pre_revision_text_witness :
    (CAI.constitutional_critique "p" "hello" CAI.demoConstitution CAI.errOracle 1
        (98/100)).rounds.getLast? = some CAI.demoRound ∧
    (CAI.constitutional_critique "p" "hello" CAI.demoConstitution CAI.errOracle 1
        (98/100)).final = CAI.demoRound.input_response := by
  have hlast : (CAI.constitutional_critique "p" "hello" CAI.demoConstitution
      CAI.errOracle 1 (98/100)).rounds.getLast? = some CAI.demoRound := by
    rw [CAI.demo_batch_rounds]
    rfl
  refine ⟨hlast, ?_⟩
  refine (C1_convergence_keeps_pre_revision_text "p" "hello" CAI.demoConstitution
    CAI.errOracle 1 (98/100) CAI.demoRound hlast).1 ?_
  rw [show CAI.demoRound.input_response = "hello" from rfl,
    show CAI.demoRound.revised_response = "hello" from rfl,
    CAI.calculate_text_similarity_self]
  norm_num

/-- C2 counterexample: in the streaming variant a recorded round does not carry
one critique entry per enabled principle.  With one enabled principle whose
evaluation parses as non-triggered, the recorded round's critique list is
empty (length 0, not 1). -/
theorem C2_streaming_round_drops_untriggered :
    (CAI.run_full_pipeline_streaming "p" (CAI.mkConstitution [CAI.mkPrinciple "p1" "P1"])
        { init := Except.ok "hello"
          crit := fun _ _ _ => Except.ok "no json here"
          rev := fun _ _ _ => Except.ok "revised"
          jsonLoads := fun _ => Except.error "unreachable" }
        1).map (fun res => res.rounds.map (fun r => r.critiques.length)) =
      Except.ok [0] ∧
    (CAI.mkConstitution [CAI.mkPrinciple "p1" "P1"]).get_enabled_principles.length = 1 ∧
    (0 : Nat) ≠ 1 := by
  refine ⟨?_, rfl, by decide⟩
  rfl

/-- C2 amended: the batch loop satisfies the claim — every recorded round has
exactly one critique per enabled principle, in constitution order — while the
streaming variant records only the critiques whose evaluation was triggered
(every critique stored in a streaming round has `triggered = true`). -/
theorem C2_round_critiques_shape :
    (∀ (prompt initial_response : String) (constitution : CAI.Constitution)
       (oracle : CAI.GenOracle) (max_rounds : Nat) (threshold : ℚ)
       (r : CAI.CritiqueRound),
       r ∈ (CAI.constitutional_critique prompt initial_response constitution oracle
         max_rounds threshold).rounds →
       r.critiques.map (·.principle_id) =
         constitution.get_enabled_principles.map (·.id)) ∧
    (∀ (prompt : String) (constitution : CAI.Constitution) (oracle : CAI.StreamOracle)
       (max_rounds : Nat) (res : CAI.StreamResult) (r : CAI.CritiqueRound)
       (c : CAI.PrincipleCritique),
       CAI.run_full_pipeline_streaming prompt constitution oracle max_rounds =
         Except.ok res →
       r ∈ res.rounds → c ∈ r.critiques → c.triggered = true) := by
  constructor
  · intro prompt initial_response constitution oracle max_rounds threshold r hr
    exact CAI.critiqueLoop_critiques_shape oracle prompt
      constitution.get_enabled_principles threshold max_rounds 0 initial_response [] []
      (fun r hr => absurd hr (List.not_mem_nil r)) r hr
  · intro prompt constitution oracle max_rounds res r c hrun hr hc
    obtain ⟨init, out, _, hloop, hrounds, _, _⟩ :=
      CAI.run_streaming_inversion prompt constitution oracle max_rounds res hrun
    rw [hrounds] at hr
    exact CAI.streamLoop_rounds_triggered oracle prompt constitution.principles
      max_rounds 0 init [] [] out hloop
      (fun r hr => absurd hr (List.not_mem_nil r)) r hr c hc

/-- Witness for C2 at concrete runs of both variants. -/
theorem C2_round_critiques_shape_witness :
    CAI.demoRound ∈ (CAI.constitutional_critique "p" "hello" CAI.demoConstitution
      CAI.errOracle 1 (98/100)).rounds ∧
    CAI.demoRound.critiques.map (·.principle_id) =
      CAI.demoConstitution.get_enabled_principles.map (·.id) ∧
    CAI.run_full_pipeline_streaming "p" CAI.demoConstitution CAI.streamTrigOracle 1 =
      Except.ok CAI.demoStreamResult ∧
    CAI.demoStreamCritique.triggered = true := by
  have hmem : CAI.demoRound ∈ (CAI.constitutional_critique "p" "hello"
      CAI.demoConstitution CAI.errOracle 1 (98/100)).rounds := by
    rw [CAI.demo_batch_rounds]
    exact List.mem_singleton.mpr rfl
  refine ⟨hmem, ?_, CAI.demo_stream_run, ?_⟩
  · exact C2_round_critiques_shape.1 "p" "hello" CAI.demoConstitution CAI.errOracle
      1 (98/100) CAI.demoRound hmem
  · exact C2_round_critiques_shape.2 "p" CAI.demoConstitution CAI.streamTrigOracle 1
      CAI.demoStreamResult CAI.demoStreamRound CAI.demoStreamCritique
      CAI.demo_stream_run (List.mem_singleton.mpr rfl) (List.mem_singleton.mpr rfl)

/-- C3 counterexample: the streaming variant reports `converged = true` after a
run that executed exactly `max_rounds` rounds (the round-count proxy says
not-converged), because its last recorded round had no critiques. -/
theorem C3_streaming_converged_despite_full_budget :
    (CAI.run_full_pipeline_streaming "p" (CAI.mkConstitution [CAI.mkPrinciple "p1" "P1"])
        { init := Except.ok "hello"
          crit := fun _ _ _ => Except.ok "no json here"
          rev := fun _ _ _ => Except.ok "revised"
          jsonLoads := fun _ => Except.error "unreachable" }
        1).map (fun res => (res.converged, res.total_rounds)) =
      Except.ok (true, 1) ∧
    ¬((1 : Nat) < 1) := by
  refine ⟨?_, by decide⟩
  rfl

/-- C3 amended: the batch loop's `converged` flag is exactly the round-count
proxy `total_rounds < max_rounds`; the streaming variant instead reports
`converged = (total_rounds < max_rounds) or (last round's critiques empty)`,
so it can report convergence even when the budget was exhausted. -/
theorem C3_converged_round_count_proxy :
    (∀ (prompt initial_response : String) (constitution : CAI.Constitution)
       (oracle : CAI.GenOracle) (max_rounds : Nat) (threshold : ℚ),
       ((CAI.constitutional_critique prompt initial_response constitution oracle
           max_rounds threshold).converged = true ↔
        (CAI.constitutional_critique prompt initial_response constitution oracle
           max_rounds threshold).total_rounds < max_rounds)) ∧
    (∀ (prompt : String) (constitution : CAI.Constitution) (oracle : CAI.StreamOracle)
       (max_rounds : Nat) (res : CAI.StreamResult),
       CAI.run_full_pipeline_streaming prompt constitution oracle max_rounds =
         Except.ok res →
       (res.converged = true ↔ (res.total_rounds < max_rounds ∨
         ∃ lastr, res.rounds.getLast? = some lastr ∧ lastr.critiques = []))) := by
  constructor
  · intro prompt initial_response constitution oracle max_rounds threshold
    simp only [CAI.constitutional_critique]
    exact decide_eq_true_iff
  · intro prompt constitution oracle max_rounds res hrun
    obtain ⟨init, out, _, _, hrounds, htot, hconv⟩ :=
      CAI.run_streaming_inversion prompt constitution oracle max_rounds res hrun
    rcases hconv with ⟨hlen, hc⟩ | ⟨hlen, lastr, hlast, hc⟩
    · rw [hc, htot, hrounds]
      simp [hlen]
    · rw [hc, htot, hrounds]
      constructor
      · intro hemp
        exact Or.inr ⟨lastr, hlast, List.isEmpty_iff.mp hemp⟩
      · intro hd
        rcases hd with hl | ⟨l2, hl2, hnil⟩
        · exact absurd hl hlen
        · rw [hlast] at hl2
          cases hl2
          simp [hnil]

/-- Witness for C3 at concrete runs of both variants. -/
theorem C3_converged_round_count_proxy_witness :
    ((CAI.constitutional_critique "p" "hello" CAI.demoConstitution CAI.errOracle 1
        (98/100)).converged = true ↔
      (CAI.constitutional_critique "p" "hello" CAI.demoConstitution CAI.errOracle 1
        (98/100)).total_rounds < 1) ∧
    CAI.run_full_pipeline_streaming "p" CAI.demoConstitution CAI.streamTrigOracle 1 =
      Except.ok CAI.demoStreamResult ∧
    (CAI.demoStreamResult.converged = true ↔
      (CAI.demoStreamResult.total_rounds < 1 ∨
       ∃ lastr, CAI.demoStreamResult.rounds.getLast? = some lastr ∧
         lastr.critiques = [])) :=
  ⟨C3_converged_round_count_proxy.1 "p" "hello" CAI.demoConstitution CAI.errOracle
      1 (98/100),
   CAI.demo_stream_run,
   C3_converged_round_count_proxy.2 "p" CAI.demoConstitution CAI.streamTrigOracle 1
      CAI.demoStreamResult CAI.demo_stream_run⟩

/-- C6 counterexample: a streaming round's confidence can be negative.  With
eleven enabled principles all triggering, the recorded round carries
`confidence = 1.0 - 11 * 0.1 < 0`, outside `[0, 1]`. -/
theorem C6_streaming_confidence_negative :
    (CAI.run_full_pipeline_streaming "p"
        (CAI.mkConstitution ((List.range 11).map
          (fun i => CAI.mkPrinciple (toString i) (toString i))))
        { init := Except.ok "hello"
          crit := fun _ _ _ => Except.ok "{}"
          rev := fun _ _ _ => Except.ok "revised"
          jsonLoads := fun _ =>
            Except.ok ⟨some true, some (1/2), some "bad", some []⟩ }
        1).map (fun res => res.rounds.map (fun r => r.confidence)) =
      Except.ok [1 - (11 : ℚ) * (1/10)] ∧
    (1 - (11 : ℚ) * (1/10)) < 0 := by
  constructor
  · rfl
  · norm_num

/-- C6 amended: every round recorded by the batch loop carries a confidence in
`[0, 1]` (each is a `generate_revision` confidence, which is 1, 0, or
`0.5 + 0.5 * similarity`); the streaming variant's rounds are not so bounded
(see the counterexample). -/
theorem C6_batch_round_confidence_in_unit_interval
    (prompt initial_response : String) (constitution : CAI.Constitution)
    (oracle : CAI.GenOracle) (max_rounds : Nat) (threshold : ℚ)
    (r : CAI.CritiqueRound)
    (hr : r ∈ (CAI.constitutional_critique prompt initial_response constitution oracle
        max_rounds threshold).rounds) :
    0 ≤ r.confidence ∧ r.confidence ≤ 1 :=
  CAI.critiqueLoop_confidence_bounds oracle prompt
    constitution.get_enabled_principles threshold max_rounds 0 initial_response [] []
    (fun r hr => absurd hr (List.not_mem_nil r)) r hr

/-- Witness for C6 at the concrete batch run. -/
theorem C6_batch_round_confidence_in_unit_interval_witness :
    CAI.demoRound ∈ (CAI.constitutional_critique "p" "hello" CAI.demoConstitution
      CAI.errOracle 1 (98/100)).rounds ∧
    0 ≤ CAI.demoRound.confidence ∧ CAI.demoRound.confidence ≤ 1 := by
  have hmem : CAI.demoRound ∈ (CAI.constitutional_critique "p" "hello"
      CAI.demoConstitution CAI.errOracle 1 (98/100)).rounds := by
    rw [CAI.demo_batch_rounds]
    exact List.mem_singleton.mpr rfl
  exact ⟨hmem, C6_batch_round_confidence_in_unit_interval "p" "hello"
    CAI.demoConstitution CAI.errOracle 1 (98/100) CAI.demoRound hmem⟩

/-- C8 counterexample: `calculate_text_similarity` is not symmetric.  On the
pair `"abab"`/`"baab"` the greedy longest-block matching finds 2 matched
characters one way (score 1/2) and 3 the other way (score 3/4). -/
theorem C8_similarity_not_symmetric :
    CAI.calculate_text_similarity "abab" "baab" = 1/2 ∧
    CAI.calculate_text_similarity "baab" "abab" = 3/4 ∧
    CAI.calculate_text_similarity "abab" "baab" ≠
      CAI.calculate_text_similarity "baab" "abab" := by
  have h1 : CAI.matchTotal
      (CAI.get_matching_blocks "abab".data "baab".data (fun _ => false)) = 2 := by
    decide
  have h2 : CAI.matchTotal
      (CAI.get_matching_blocks "baab".data "abab".data (fun _ => false)) = 3 := by
    decide
  have hl1 : "abab".data.length = 4 := by decide
  have hl2 : "baab".data.length = 4 := by decide
  have e1 : CAI.calculate_text_similarity "abab" "baab" = 1/2 := by
    simp only [CAI.calculate_text_similarity, CAI.seqMatcherScore, h1, hl1, hl2,
      CAI.calcRatioAux]
    norm_num
  have e2 : CAI.calculate_text_similarity "baab" "abab" = 3/4 := by
    simp only [CAI.calculate_text_similarity, CAI.seqMatcherScore, h2, hl1, hl2,
      CAI.calcRatioAux]
    norm_num
  refine ⟨e1, e2, ?_⟩
  rw [e1, e2]
  norm_num

/-- C8 amended: the similarity function satisfies the self-similarity and range
parts of the claim — `similarity(a, a) = 1.0` for every string and the result
always lies in `[0, 1]` — but it is not symmetric in general (see the
counterexample). -/
theorem C8_similarity_self_one_and_bounded (a b : String) :
    CAI.calculate_text_similarity a a = 1 ∧
    0 ≤ CAI.calculate_text_similarity a b ∧
    CAI.calculate_text_similarity a b ≤ 1 :=
  ⟨CAI.calculate_text_similarity_self a, CAI.calculate_text_similarity_bounds a b⟩

/-- C7: when at least one critique is triggered, a successful generation call
yields the stripped revision text with confidence exactly
`0.5 + 0.5 * similarity(original, revised)`, which lies in `[0.5, 1]`; a
failing call yields the original text with confidence 0 and the
revision-failed change entry. -/
theorem C7_generate_revision_confidence
    (original_response prompt t e : String)
    (critiques : List CAI.PrincipleCritique) (c : CAI.PrincipleCritique)
    (hc : c ∈ critiques) (ht : c.triggered = true) :
    (CAI.generate_revision original_response critiques prompt (Except.ok t) =
      { text := t.trim
        confidence := 1/2 + CAI.calculate_text_similarity original_response t.trim * (1/2)
        changes_made := (critiques.filter (·.triggered)).map
          (fun x => "Addressed " ++ x.principle_name ++ " violation") } ∧
     1/2 ≤ (CAI.generate_revision original_response critiques prompt (Except.ok t)).confidence ∧
     (CAI.generate_revision original_response critiques prompt (Except.ok t)).confidence ≤ 1) ∧
    CAI.generate_revision original_response critiques prompt (Except.error e) =
      { text := original_response
        confidence := 0
        changes_made := ["Revision failed: " ++ e] } := by
  have hmem : c ∈ critiques.filter (·.triggered) :=
    List.mem_filter.mpr ⟨hc, by simp [ht]⟩
  have hne : critiques.filter (·.triggered) ≠ [] := List.ne_nil_of_mem hmem
  have hie : (critiques.filter (·.triggered)).isEmpty = false := by
    cases hfe : (critiques.filter (·.triggered)).isEmpty
    · rfl
    · exact absurd (List.isEmpty_iff.mp hfe) hne
  obtain ⟨hb0, hb1⟩ :=
    CAI.calculate_text_similarity_bounds original_response t.trim
  refine ⟨⟨?_, ?_, ?_⟩, ?_⟩
  · simp [CAI.generate_revision, hie]
  · simp only [CAI.generate_revision, hie, Bool.false_eq_true, if_false]
    nlinarith
  · simp only [CAI.generate_revision, hie, Bool.false_eq_true, if_false]
    nlinarith
  · simp [CAI.generate_revision, hie]

/-- Witness for C7 at a concrete triggered critique list. -/
theorem C7_generate_revision_confidence_witness :
    (CAI.generate_revision "orig" [⟨"p1", "P1", true, "bad", 1/2, []⟩] "prompt"
        (Except.ok "revised") =
      { text := "revised".trim
        confidence := 1/2 + CAI.calculate_text_similarity "orig" "revised".trim * (1/2)
        changes_made := ([(⟨"p1", "P1", true, "bad", 1/2, []⟩ : CAI.PrincipleCritique)].filter
            (·.triggered)).map
          (fun x => "Addressed " ++ x.principle_name ++ " violation") } ∧
     1/2 ≤ (CAI.generate_revision "orig" [⟨"p1", "P1", true, "bad", 1/2, []⟩] "prompt"
        (Except.ok "revised")).confidence ∧
     (CAI.generate_revision "orig" [⟨"p1", "P1", true, "bad", 1/2, []⟩] "prompt"
        (Except.ok "revised")).confidence ≤ 1) ∧
    CAI.generate_revision "orig" [⟨"p1", "P1", true, "bad", 1/2, []⟩] "prompt"
        (Except.error "down") =
      { text := "orig"
        confidence := 0
        changes_made := ["Revision failed: " ++ "down"] } :=
  C7_generate_revision_confidence "orig" "prompt" "revised" "down"
    [⟨"p1", "P1", true, "bad", 1/2, []⟩] ⟨"p1", "P1", true, "bad", 1/2, []⟩
    (List.mem_singleton.mpr rfl) rfl

/-- C5: with no triggered critique, `generate_revision` short-circuits: the
result is independent of the generation capability (no call is made), the text
is the original response, confidence is 1.0, and `changes_made` is the fixed
no-changes-needed entry. -/
theorem C5_generate_revision_short_circuit
    (original_response prompt : String) (critiques : List CAI.PrincipleCritique)
    (gen : Except String String)
    (h : ∀ c ∈ critiques, c.triggered = false) :
    CAI.generate_revision original_response critiques prompt gen =
      { text := original_response
        confidence := 1
        changes_made := ["No changes needed - response already aligns with principles"] } := by
  have hfe : critiques.filter (·.triggered) = [] := by
    rw [List.filter_eq_nil]
    intro c hcmem
    simp [h c hcmem]
  simp [CAI.generate_revision, hfe]

/-- Witness for C5 at a concrete all-untriggered critique list. -/
theorem C5_generate_revision_short_circuit_witness :
    CAI.generate_revision "orig" [⟨"p1", "P1", false, "fine", 0, []⟩] "prompt"
        (Except.error "never called") =
      { text := "orig"
        confidence := 1
        changes_made := ["No changes needed - response already aligns with principles"] } :=
  C5_generate_revision_short_circuit "orig" "prompt" _ _ (by decide)
